import Mathlib

/-!
Shallow embedding of `git_patch_repair.py`.

This file gives an executable Lean model of the core pipeline of the
`git_patch_repair` program: cleaning raw patch text, parsing it into a
document of file diffs and hunks, validating/repairing hunk headers,
rendering the document back to text, and the iterative repair loop.

Text is modelled as `List Char`; a line is also a `List Char`.  Python's
`str.splitlines(keepends=True)`, `str.rstrip()`, `str.strip()` and the two
regular expressions used by the program are modelled explicitly below.
-/

namespace GitPatchRepair

/-- A line of text (characters, normally including its terminator). -/
abbrev Line := List Char

/-- Whitespace characters stripped by Python's `str.rstrip()` / `str.strip()`
(the ASCII/latin subset relevant to patch text). -/
def isPySpace (c : Char) : Bool :=
  c = ' ' || c = '\t' || c = '\n' || c = '\r' || c = '\x0b' || c = '\x0c' ||
  c = '\x1c' || c = '\x1d' || c = '\x1e' || c = '\x1f' || c = '\x85' ||
  c = ' ' || c = ' '

/-- Line-break characters recognised by Python's `str.splitlines`. -/
def isLineBreak (c : Char) : Bool :=
  c = '\n' || c = '\r' || c = '\x0b' || c = '\x0c' ||
  c = '\x1c' || c = '\x1d' || c = '\x1e' || c = '\x85' ||
  c = ' ' || c = ' '

/-- Python `str.rstrip()`: remove trailing whitespace. -/
def rstrip (l : Line) : Line := (l.reverse.dropWhile isPySpace).reverse

/-- Python `str.lstrip()`: remove leading whitespace. -/
def lstrip (l : Line) : Line := l.dropWhile isPySpace

/-- Python `str.strip()`: remove whitespace at both ends. -/
def strip (l : Line) : Line := lstrip (rstrip l)

/-- Python `str.rstrip("\n")`: remove trailing newline characters only. -/
def rstripNl (l : Line) : Line := (l.reverse.dropWhile (fun c => c = '\n')).reverse

/-- Worker for `splitLines`; `acc` holds the current line's characters in
reverse order.  The fuel only makes the recursion structural: every step
consumes at least one character, so fuel `length + 1` never runs out. -/
def splitLinesAux : Nat → List Char → List Char → List Line
  | 0, acc, _ => if acc.isEmpty then [] else [acc.reverse]
  | _ + 1, acc, [] => if acc.isEmpty then [] else [acc.reverse]
  | fuel + 1, acc, c :: rest =>
    if c = '\r' then
      if rest.head? = some '\n' then
        (acc.reverse ++ ['\r', '\n']) :: splitLinesAux fuel [] rest.tail
      else (acc.reverse ++ ['\r']) :: splitLinesAux fuel [] rest
    else if isLineBreak c then
      (acc.reverse ++ [c]) :: splitLinesAux fuel [] rest
    else splitLinesAux fuel (c :: acc) rest

/-- Python `text.splitlines(keepends=True)` (`\r\n` kept together as one
terminator). -/
def splitLines (text : List Char) : List Line :=
  splitLinesAux (text.length + 1) [] text

/-- Replace each newline character by the two characters `\` `n`
(Python `text.replace("\n", "\\n")`). -/
def escapeNl : List Char → List Char
  | [] => []
  | c :: rest =>
    if c = '\n' then '\\' :: 'n' :: escapeNl rest else c :: escapeNl rest

/-- `preview` from the source: newline-escape the text, then truncate to 80
characters plus an ellipsis when longer (`max_len` is always left at its
default of 80 by the program). -/
def preview (text : List Char) : List Char :=
  let e := escapeNl text
  if e.length ≤ 80 then e else e.take 80 ++ "...".data

/-- Does the line start with the file-diff marker `diff --git `? -/
def isFileMarker (l : Line) : Bool := List.isPrefixOf "diff --git ".data l

/-- Does the line start with the hunk marker `@@ `? -/
def isHunkMarker (l : Line) : Bool := List.isPrefixOf "@@ ".data l

/-- Preamble stripping in `basic_clean`: all lines before the first
`diff --git ` line are discarded (dropping zero lines when the first line
already is one, or when there is none). -/
def stripPreamble (lines : List Line) : List Line :=
  match lines.findIdx? isFileMarker with
  | some i => lines.drop i
  | none => lines

/-- Whitespace normalisation of one line in `basic_clean`:
`line.rstrip("\n").rstrip() + "\n"`. -/
def cleanLine (l : Line) : Line := rstrip (rstripNl l) ++ ['\n']

/-- A line that `basic_clean`'s EOF loop pops: it starts with `+` and strips
to exactly `+`. -/
def isPlusBlank (l : Line) : Bool :=
  List.isPrefixOf ['+'] l && decide (strip l = ['+'])

/-- The trailing `while`-pop loop of `basic_clean`. -/
def dropTrailingPlusBlanks (lines : List Line) : List Line :=
  (lines.reverse.dropWhile isPlusBlank).reverse

/-- `basic_clean` from the source: strip the preamble, normalise trailing
whitespace on every line, then drop trailing `+`-blank lines at EOF. -/
def basic_clean (text : List Char) : List Line :=
  dropTrailingPlusBlanks ((stripPreamble (splitLines text)).map cleanLine)

/-- The `WHITESPACE_TRIMMED` events emitted by `basic_clean`'s normalisation
loop, as pairs of the 1-based line number and the recorded
`original_preview`.  An event is emitted when `line.rstrip() != line`. -/
def trimEventsFrom : Nat → List Line → List (Nat × List Char)
  | _, [] => []
  | n, l :: rest =>
    if rstrip l ≠ l then (n, preview l) :: trimEventsFrom (n + 1) rest
    else trimEventsFrom (n + 1) rest

/-- All `WHITESPACE_TRIMMED` events of one `basic_clean` run (the loop
enumerates the lines that remain after preamble stripping, starting at 1). -/
def basicCleanTrimEvents (text : List Char) : List (Nat × List Char) :=
  trimEventsFrom 1 (stripPreamble (splitLines text))

/-- A hunk: one `@@ ...` header line and its body lines. -/
structure Hunk where
  header : Line
  body : List Line
deriving DecidableEq, Repr

/-- A file diff: one `diff --git ...` header line, auxiliary header lines,
and hunks. -/
structure FileDiff where
  header : Line
  headers : List Line
  hunks : List Hunk
deriving DecidableEq, Repr

/-- Is the character an ASCII decimal digit (regex `\d` over this input)? -/
def isDigitChar (c : Char) : Bool := '0' ≤ c && c ≤ '9'

/-- Match a literal at the front of the input, returning the rest. -/
def dropLit (lit : List Char) (l : List Char) : Option (List Char) :=
  if List.isPrefixOf lit l then some (l.drop lit.length) else none

/-- Match a nonempty run of digits (regex `\d+`, greedy), returning the run
and the rest. -/
def takeDigits (l : List Char) : Option (List Char × List Char) :=
  if (l.takeWhile isDigitChar).isEmpty then none
  else some (l.takeWhile isDigitChar, l.dropWhile isDigitChar)

/-- Numeric value of a digit string (how Python's `int` reads the regex
groups). -/
def digitsVal (ds : List Char) : Nat :=
  ds.foldl (fun a c => 10 * a + (c.toNat - 48)) 0

/-- Match of the hunk-header pattern `@@ -\d+,\d+ \+\d+,\d+ @@` at the start
of the input (used both by `re.match` in `validate_hunk` and, at every
position, by `re.sub` in `_maybe_fix_span_header`).  Returns
`(old_start, old_span, new_start, new_span, rest-after-the-match)`. -/
def parseHunkHeaderFull (l : List Char) :
    Option (Nat × Nat × Nat × Nat × List Char) :=
  (dropLit "@@ -".data l).bind fun r1 =>
  (takeDigits r1).bind fun dr1 =>
  (dropLit ",".data dr1.2).bind fun r3 =>
  (takeDigits r3).bind fun dr2 =>
  (dropLit " +".data dr2.2).bind fun r5 =>
  (takeDigits r5).bind fun dr3 =>
  (dropLit ",".data dr3.2).bind fun r7 =>
  (takeDigits r7).bind fun dr4 =>
  (dropLit " @@".data dr4.2).map fun r9 =>
  (digitsVal dr1.1, digitsVal dr2.1, digitsVal dr3.1, digitsVal dr4.1, r9)

/-- The `old`/`new` groups of `validate_hunk`'s `re.match` on the hunk
header: the declared old and new spans. -/
def parseHunkHeader (l : Line) : Option (Nat × Nat) :=
  match parseHunkHeaderFull l with
  | none => none
  | some (_, o, _, n, _) => some (o, n)

/-- Decimal digits of `n`, with explicit fuel (the fuel is always sufficient
when it exceeds `n`); mirrors Python's decimal formatting of an `int`. -/
def natToCharsAux : Nat → Nat → List Char
  | 0, _ => []
  | fuel + 1, n =>
    if n < 10 then [Char.ofNat (48 + n)]
    else natToCharsAux fuel (n / 10) ++ [Char.ofNat (48 + n % 10)]

/-- Decimal representation of a natural number as characters. -/
def natToChars (n : Nat) : List Char := natToCharsAux (n + 1) n

/-- The replacement text `@@ -0,{expected_old} +0,{expected_new} @@` used by
`_maybe_fix_span_header`'s `re.sub`. -/
def replList (eo en : Nat) : List Char :=
  "@@ -0,".data ++ natToChars eo ++ " +0,".data ++ natToChars en ++ " @@".data

/-- Fuelled worker for `subSpan`: scan left to right; at each position either
replace a pattern match (continuing after it) or keep the character. -/
def subSpanAux (repl : List Char) : Nat → List Char → List Char
  | 0, l => l
  | _ + 1, [] => []
  | fuel + 1, c :: rest =>
    match parseHunkHeaderFull (c :: rest) with
    | some (_, _, _, _, rem) => repl ++ subSpanAux repl fuel rem
    | none => c :: subSpanAux repl fuel rest

/-- `re.sub(r"@@ -\d+,\d+ \+\d+,\d+ @@", repl, l)`: replace every
non-overlapping occurrence of the span pattern. -/
def subSpan (repl : List Char) (l : List Char) : List Char :=
  subSpanAux repl l.length l

/-- Body-line kinds distinguished by `_count_body_lines`' prefix tests. -/
inductive LineKind
  | context
  | removed
  | added
  | noNewlineMarker
  | unexpected
deriving DecidableEq, Repr

/-- Classification of one hunk body line, in the exact test order of
`_count_body_lines`. -/
def classifyLine (l : Line) : LineKind :=
  if List.isPrefixOf " ".data l then .context
  else if List.isPrefixOf "-".data l then .removed
  else if List.isPrefixOf "+".data l && decide (strip l ≠ ['+']) then .added
  else if List.isPrefixOf "\\ No newline at end of file".data l then .noNewlineMarker
  else .unexpected

/-- One step of `_count_body_lines`' accumulating loop. -/
def countStep (acc : Nat × Nat × Nat × Bool) (l : Line) : Nat × Nat × Nat × Bool :=
  let (c, r, a, u) := acc
  match classifyLine l with
  | .context => (c + 1, r, a, u)
  | .removed => (c, r + 1, a, u)
  | .added => (c, r, a + 1, u)
  | .noNewlineMarker => (c, r, a, u)
  | .unexpected => (c, r, a, true)

/-- `_count_body_lines`: the accumulating loop over the hunk body, returning
`(context, removed, added, has_unexpected)`. -/
def count_body_lines (body : List Line) : Nat × Nat × Nat × Bool :=
  body.foldl countStep (0, 0, 0, false)

/-- Number of `Context` lines in a body. -/
def countCtx (body : List Line) : Nat :=
  body.countP fun l => decide (classifyLine l = .context)

/-- Number of `Removed` lines in a body. -/
def countRem (body : List Line) : Nat :=
  body.countP fun l => decide (classifyLine l = .removed)

/-- Number of `Added` lines in a body. -/
def countAdd (body : List Line) : Nat :=
  body.countP fun l => decide (classifyLine l = .added)

/-- Does the body contain a line of the `Unexpected` kind? -/
def hasUnexpected (body : List Line) : Bool :=
  body.any fun l => decide (classifyLine l = .unexpected)

/-- `_maybe_fix_span_header`: when the declared spans differ from the counted
ones, rewrite the header with `re.sub` and report
`(repaired, old_span, new_span)` plus the possibly-updated hunk. -/
def maybe_fix_span_header (hunk : Hunk)
    (old_span new_span context removed added : Nat) : Bool × Nat × Nat × Hunk :=
  let expected_old := context + removed
  let expected_new := context + added
  if expected_old ≠ old_span ∨ expected_new ≠ new_span then
    let newHeader := subSpan (replList expected_old expected_new) hunk.header
    (true, expected_old, expected_new, { hunk with header := newHeader })
  else
    (false, old_span, new_span, hunk)

/-- The distinct exit points of `validate_hunk` (each corresponds to one of
its `return` statements / logged events). -/
inductive HunkOutcome
  | malformedHeader
  | unexpectedRejected
  | valid
  | spanMismatch
  | repairedValid
  | notRepaired
deriving DecidableEq, Repr

/-- Does the outcome make `validate_hunk` return `True` (hunk retained)? -/
def outcomeRetains : HunkOutcome → Bool
  | .valid => true
  | .repairedValid => true
  | _ => false

/-- `validate_hunk`: header regex match, body classification, validity check,
and the conditional span repair, returning the exit point taken and the
possibly-updated hunk (the `file_header` argument of the source is used only
for logging and is omitted). -/
def validate_hunk (hunk : Hunk) (allow_repairs : Bool) : HunkOutcome × Hunk :=
  match parseHunkHeader hunk.header with
  | none => (.malformedHeader, hunk)
  | some (old_span, new_span) =>
    let (context, removed, added, has_unexpected) := count_body_lines hunk.body
    if has_unexpected ∧ ¬allow_repairs then (.unexpectedRejected, hunk)
    else
      let expected_old := context + removed
      let expected_new := context + added
      if expected_old = old_span ∧ expected_new = new_span ∧ ¬has_unexpected then
        (.valid, hunk)
      else if ¬allow_repairs then (.spanMismatch, hunk)
      else
        let (repaired, _, _, hunk2) :=
          maybe_fix_span_header hunk old_span new_span context removed added
        if repaired then (.repairedValid, hunk2) else (.notRepaired, hunk2)

/-- The boolean result of `validate_hunk` as the source returns it. -/
def validate_hunk_bool (hunk : Hunk) (allow_repairs : Bool) : Bool :=
  outcomeRetains (validate_hunk hunk allow_repairs).1

/-- Collect body lines until the next structural marker (`diff --git ` or
`@@ `); the non-marker lines go to the current hunk body / file headers,
exactly as the parser's stateful loop routes them. -/
def takeBody : List Line → List Line × List Line
  | [] => ([], [])
  | l :: rest =>
    if isFileMarker l || isHunkMarker l then ([], l :: rest)
    else (l :: (takeBody rest).1, (takeBody rest).2)

/-- Parse consecutive hunks of one file section (fuelled; the fuel is always
sufficient when it exceeds the number of lines). -/
def parseHunksAux : Nat → List Line → List Hunk × List Line
  | 0, lines => ([], lines)
  | _ + 1, [] => ([], [])
  | fuel + 1, l :: rest =>
    if isFileMarker l then ([], l :: rest)
    else if isHunkMarker l then
      (⟨l, (takeBody rest).1⟩ :: (parseHunksAux fuel (takeBody rest).2).1,
        (parseHunksAux fuel (takeBody rest).2).2)
    else ([], l :: rest)

/-- Parse the whole line list into file sections, skipping orphan lines
before the first `diff --git ` line (fuelled). -/
def parseFilesAux : Nat → List Line → List FileDiff
  | 0, _ => []
  | _ + 1, [] => []
  | fuel + 1, l :: rest =>
    if isFileMarker l then
      ⟨l, (takeBody rest).1,
        (parseHunksAux ((takeBody rest).2.length + 1) (takeBody rest).2).1⟩ ::
        parseFilesAux fuel
          (parseHunksAux ((takeBody rest).2.length + 1) (takeBody rest).2).2
    else parseFilesAux fuel rest

/-- `parse_diff`: the single forward pass of the source, written as a
recursive descent (lines go, in order: new file on `diff --git `, orphan when
no file is open, new hunk on `@@ `, body line when a hunk is open, else file
header line). -/
def parse_diff (lines : List Line) : List FileDiff :=
  parseFilesAux (lines.length + 1) lines

/-- `filter_or_repair_files`: validate (and possibly repair) every hunk,
keep the retained ones, and drop a file that keeps no hunk. -/
def filter_or_repair_files (files : List FileDiff) (allow_repairs : Bool) :
    List FileDiff :=
  files.filterMap fun fd =>
    let valid_hunks := fd.hunks.filterMap fun hk =>
      let (outcome, hk2) := validate_hunk hk allow_repairs
      if outcomeRetains outcome then some hk2 else none
    if valid_hunks.isEmpty then none else some { fd with hunks := valid_hunks }

/-- The lines a hunk contributes to the rendered patch. -/
def hunkLines (h : Hunk) : List Line := h.header :: h.body

/-- The lines a file diff contributes to the rendered patch. -/
def fileLines (fd : FileDiff) : List Line :=
  fd.header :: (fd.headers ++ fd.hunks.flatMap hunkLines)

/-- All lines of a document, in render order. -/
def docLines (files : List FileDiff) : List Line := files.flatMap fileLines

/-- `render_patch`: order-preserving concatenation of all lines. -/
def render_patch (files : List FileDiff) : List Char := (docLines files).flatten

/-- The document produced by one clean→parse→validate/repair pass with
repairs enabled (as in `run_apply_once` and each round of `run_iterative`). -/
def repairedDoc (text : List Char) : List FileDiff :=
  filter_or_repair_files (parse_diff (basic_clean text)) true

/-- One full clean→parse→validate/repair→render cycle with repairs
enabled. -/
def pipelineOnce (text : List Char) : List Char := render_patch (repairedDoc text)

/-- The summary data of `run_iterative`: the reported `iterations_run`, the
final patch text written to the output, and the last oracle result. -/
structure IterSummary where
  iterationsRun : Nat
  finalText : List Char
  gitResult : Option Bool
deriving DecidableEq, Repr

/-- The `for iteration in range(max_iterations)` loop of `run_iterative`:
`remaining` rounds are left, `done` rounds have run; `last` is
`last_patch_text` and `git` is `git_result`.  The oracle stands for
`git_validate` (`true` = "ok"). -/
def iterLoop (oracle : List Char → Bool) (useGit : Bool) :
    Nat → Nat → List Char → Option (List Char) → Option Bool → IterSummary
  | 0, done, patch, _, git => ⟨done, patch, git⟩
  | remaining + 1, done, patch, last, git =>
    let newPatch := pipelineOnce patch
    let git2 := if useGit then some (oracle newPatch) else git
    if last = some newPatch then ⟨done + 1, newPatch, git2⟩
    else if git2 = some true then ⟨done + 1, newPatch, git2⟩
    else iterLoop oracle useGit remaining (done + 1) newPatch (some newPatch) git2

/-- `run_iterative`.  When `max_iterations = 0` (or is negative) the loop
body never runs and the summary expression `iteration + 1` reads the loop
variable before any binding exists, so the function aborts with a `NameError`
instead of producing a summary; this is modelled by `none`. -/
def run_iterative (oracle : List Char → Bool) (useGit : Bool)
    (maxIterations : Nat) (input : List Char) : Option IterSummary :=
  if maxIterations = 0 then none
  else some (iterLoop oracle useGit maxIterations 0 input none none)

/-! ## Characterisation of the body-line counts -/

theorem count_fold (body : List Line) (c r a : Nat) (u : Bool) :
    body.foldl countStep (c, r, a, u) =
      (c + countCtx body, r + countRem body, a + countAdd body,
        u || hasUnexpected body) := by
  induction body generalizing c r a u with
  | nil => simp [countCtx, countRem, countAdd, hasUnexpected]
  | cons l rest ih =>
    simp only [List.foldl_cons]
    cases hcl : classifyLine l <;>
      simp [countStep, hcl, ih, countCtx, countRem, countAdd, hasUnexpected,
        List.countP_cons, List.any_cons] <;> omega

theorem count_body_lines_eq (body : List Line) :
    count_body_lines body =
      (countCtx body, countRem body, countAdd body, hasUnexpected body) := by
  simp [count_body_lines, count_fold]

/-! ## The exit points of `validate_hunk` -/

/-- The counted old span of a body. -/
def expectedOld (body : List Line) : Nat := countCtx body + countRem body

/-- The counted new span of a body. -/
def expectedNew (body : List Line) : Nat := countCtx body + countAdd body

theorem validate_hunk_malformed (h : Hunk) (ar : Bool)
    (hp : parseHunkHeader h.header = none) :
    validate_hunk h ar = (.malformedHeader, h) := by
  simp [validate_hunk, hp]

theorem validate_hunk_unexpected_rejected (h : Hunk) (o n : Nat)
    (hp : parseHunkHeader h.header = some (o, n))
    (hu : hasUnexpected h.body = true) :
    validate_hunk h false = (.unexpectedRejected, h) := by
  simp [validate_hunk, hp, count_body_lines_eq, hu]

theorem validate_hunk_valid (h : Hunk) (ar : Bool) (o n : Nat)
    (hp : parseHunkHeader h.header = some (o, n))
    (ho : expectedOld h.body = o) (hn : expectedNew h.body = n)
    (hu : hasUnexpected h.body = false) :
    validate_hunk h ar = (.valid, h) := by
  simp [validate_hunk, hp, count_body_lines_eq, hu, ← ho, ← hn,
    expectedOld, expectedNew]

theorem validate_hunk_span_mismatch (h : Hunk) (o n : Nat)
    (hp : parseHunkHeader h.header = some (o, n))
    (hm : expectedOld h.body ≠ o ∨ expectedNew h.body ≠ n)
    (hu : hasUnexpected h.body = false) :
    validate_hunk h false = (.spanMismatch, h) := by
  simp only [expectedOld, expectedNew] at hm
  simp [validate_hunk, hp, count_body_lines_eq, hu]
  tauto

theorem validate_hunk_repaired (h : Hunk) (o n : Nat)
    (hp : parseHunkHeader h.header = some (o, n))
    (hm : expectedOld h.body ≠ o ∨ expectedNew h.body ≠ n) :
    validate_hunk h true =
      (.repairedValid,
        { h with header :=
            subSpan (replList (expectedOld h.body) (expectedNew h.body)) h.header }) := by
  have hm' : countCtx h.body + countRem h.body ≠ o ∨
      countCtx h.body + countAdd h.body ≠ n := by
    simpa [expectedOld, expectedNew] using hm
  simp [validate_hunk, hp, count_body_lines_eq,
    maybe_fix_span_header, hm', expectedOld, expectedNew]
  tauto

theorem validate_hunk_not_repaired (h : Hunk) (o n : Nat)
    (hp : parseHunkHeader h.header = some (o, n))
    (ho : expectedOld h.body = o) (hn : expectedNew h.body = n)
    (hu : hasUnexpected h.body = true) :
    validate_hunk h true = (.notRepaired, h) := by
  simp [validate_hunk, hp, count_body_lines_eq, hu, ← ho, ← hn,
    maybe_fix_span_header, expectedOld, expectedNew]

theorem countCtx_nil : countCtx [] = 0 := rfl

theorem countRem_nil : countRem [] = 0 := rfl

theorem countAdd_nil : countAdd [] = 0 := rfl

theorem hasUnexpected_nil : hasUnexpected [] = false := rfl

/-- C1: with repairs disallowed, the validator returns true iff the header
declares spans equal to the counted `context+removed` / `context+added` and
no body line is `Unexpected` (body lines classified by the prefix rules, the
no-newline marker counting in neither span; a header that does not parse has
no declared spans, so the right-hand side is then unsatisfiable and the
validator indeed rejects). -/
theorem validate_no_repairs_iff (h : Hunk) :
    validate_hunk_bool h false = true ↔
      ∃ o n, parseHunkHeader h.header = some (o, n) ∧
        countCtx h.body + countRem h.body = o ∧
        countCtx h.body + countAdd h.body = n ∧
        hasUnexpected h.body = false := by
  unfold validate_hunk_bool
  cases hp : parseHunkHeader h.header with
  | none => simp [validate_hunk_malformed h false hp, outcomeRetains, hp]
  | some pr =>
    obtain ⟨o, n⟩ := pr
    by_cases hu : hasUnexpected h.body = true
    · rw [validate_hunk_unexpected_rejected h o n hp hu]
      simp [outcomeRetains, hp, hu]
    · have hu' : hasUnexpected h.body = false := by simpa using hu
      by_cases ho : countCtx h.body + countRem h.body = o
      · by_cases hn : countCtx h.body + countAdd h.body = n
        · rw [validate_hunk_valid h false o n hp ho hn hu']
          simp [outcomeRetains, hp, ho, hn, hu']
        · rw [validate_hunk_span_mismatch h o n hp (Or.inr hn) hu']
          simp [outcomeRetains, hp, hn]
      · rw [validate_hunk_span_mismatch h o n hp (Or.inl ho) hu']
        simp [outcomeRetains, hp, ho]

/-- C6: a hunk whose header does not match the canonical pattern is rejected
for either value of the repair flag, is left unmutated, and a file whose
hunks all fail (in particular a file whose only hunk it is) is dropped from
the output wherever it sits in the document. -/
theorem malformed_header_rejected (h : Hunk) (ar : Bool)
    (hp : parseHunkHeader h.header = none) :
    validate_hunk h ar = (.malformedHeader, h) ∧
    validate_hunk_bool h ar = false ∧
    ∀ (pre post : List FileDiff) (fd : FileDiff), fd.hunks = [h] →
      filter_or_repair_files (pre ++ fd :: post) ar =
        filter_or_repair_files pre ar ++ filter_or_repair_files post ar := by
  refine ⟨validate_hunk_malformed h ar hp, ?_, ?_⟩
  · simp [validate_hunk_bool, validate_hunk_malformed h ar hp, outcomeRetains]
  · intro pre post fd hfd
    unfold filter_or_repair_files
    rw [List.filterMap_append, List.filterMap_cons]
    have : (validate_hunk h ar) = (.malformedHeader, h) :=
      validate_hunk_malformed h ar hp
    simp [hfd, this, outcomeRetains]

/-- Witness for C6 at the spec's `@@ garbage @@` scenario. -/
theorem malformed_header_rejected_witness :
    validate_hunk_bool ⟨"@@ garbage @@\n".data, []⟩ true = false ∧
    filter_or_repair_files
      [⟨"diff --git a/g b/g\n".data, [], [⟨"@@ garbage @@\n".data, []⟩]⟩]
      true = [] := by
  have h := malformed_header_rejected ⟨"@@ garbage @@\n".data, []⟩ true (by decide)
  refine ⟨h.2.1, ?_⟩
  have h2 := h.2.2 [] []
    ⟨"diff --git a/g b/g\n".data, [], [⟨"@@ garbage @@\n".data, []⟩]⟩ rfl
  simpa [filter_or_repair_files] using h2

/-- C7: with repairs allowed, a hunk with a well-formed header containing an
`Unexpected` body line is retained iff its declared spans differ from the
counted ones (i.e. iff the span repair is actually applied); it is never
classified plain `Valid`, and with matching spans it is rejected. -/
theorem unexpected_retained_iff_repaired (h : Hunk) (o n : Nat)
    (hp : parseHunkHeader h.header = some (o, n))
    (hu : hasUnexpected h.body = true) :
    (validate_hunk_bool h true = true ↔
      (expectedOld h.body ≠ o ∨ expectedNew h.body ≠ n)) ∧
    (validate_hunk h true).1 ≠ .valid ∧
    (expectedOld h.body = o ∧ expectedNew h.body = n →
      validate_hunk_bool h true = false) := by
  by_cases hm : expectedOld h.body = o ∧ expectedNew h.body = n
  · rw [show validate_hunk h true = (.notRepaired, h) from
      validate_hunk_not_repaired h o n hp hm.1 hm.2 hu]
    simp [validate_hunk_bool, outcomeRetains, hm,
      validate_hunk_not_repaired h o n hp hm.1 hm.2 hu]
  · have hm' : expectedOld h.body ≠ o ∨ expectedNew h.body ≠ n := by tauto
    rw [show validate_hunk h true = _ from validate_hunk_repaired h o n hp hm']
    simp [validate_hunk_bool, outcomeRetains,
      validate_hunk_repaired h o n hp hm']
    tauto

/-- Witness for C7: an unexpected body line plus a span mismatch is retained
(as repaired). -/
theorem unexpected_retained_iff_repaired_witness :
    validate_hunk_bool ⟨"@@ -1,2 +1,1 @@\n".data,
      ["junk\n".data, " c\n".data]⟩ true = true := by
  have h := unexpected_retained_iff_repaired
    ⟨"@@ -1,2 +1,1 @@\n".data, ["junk\n".data, " c\n".data]⟩ 2 1
    (by decide) (by decide)
  exact h.1.mpr (by decide)

/-- Counterexample to C8 as stated: a zero-body hunk whose header declares
spans `1,1` is accepted when repairs are allowed (the spans are repaired to
`0,0`), so acceptance is not equivalent to the spans being `0`. -/
theorem zero_body_spans_counterexample :
    ¬ (validate_hunk_bool ⟨"@@ -1,1 +1,1 @@\n".data, []⟩ true = true ↔
        parseHunkHeader "@@ -1,1 +1,1 @@\n".data = some (0, 0)) := by
  decide

/-- C8 amended: a zero-body hunk is accepted with repairs disallowed iff both
declared spans are `0`; with repairs allowed it is accepted iff the header is
well-formed at all (nonzero spans are then repaired to `0,0`). -/
theorem zero_body_validates (h : Hunk) (hb : h.body = []) :
    (validate_hunk_bool h false = true ↔
      parseHunkHeader h.header = some (0, 0)) ∧
    (validate_hunk_bool h true = true ↔ (parseHunkHeader h.header).isSome) := by
  cases hp : parseHunkHeader h.header with
  | none =>
    simp [validate_hunk_bool, validate_hunk_malformed h false hp,
      validate_hunk_malformed h true hp, outcomeRetains, hp]
  | some pr =>
    obtain ⟨o, n⟩ := pr
    have hu : hasUnexpected h.body = false := by rw [hb]; rfl
    have heo : expectedOld h.body = 0 := by
      simp [hb, expectedOld, countCtx_nil, countRem_nil]
    have hen : expectedNew h.body = 0 := by
      simp [hb, expectedNew, countCtx_nil, countAdd_nil]
    by_cases hz : o = 0 ∧ n = 0
    · obtain ⟨rfl, rfl⟩ := hz
      have hv0 := validate_hunk_valid h false 0 0 hp (by simpa using heo)
        (by simpa using hen) hu
      have hv1 := validate_hunk_valid h true 0 0 hp (by simpa using heo)
        (by simpa using hen) hu
      simp [validate_hunk_bool, hv0, hv1, outcomeRetains, hp]
    · have hm : expectedOld h.body ≠ o ∨ expectedNew h.body ≠ n := by
        rw [heo, hen]; tauto
      have hr := validate_hunk_repaired h o n hp hm
      have hs := validate_hunk_span_mismatch h o n hp hm hu
      have : ¬ (o = 0 ∧ n = 0) := hz
      simp [validate_hunk_bool, hr, hs, outcomeRetains, hp]
      tauto

/-- Witness for C8 amended at a concrete zero-body hunk with zero spans. -/
theorem zero_body_validates_witness :
    validate_hunk_bool ⟨"@@ -0,0 +0,0 @@\n".data, []⟩ false = true :=
  ((zero_body_validates ⟨"@@ -0,0 +0,0 @@\n".data, []⟩ rfl).1).mpr (by decide)

/-! ## Decimal printing round-trips through the header parser -/

theorem digitsVal_append_single (xs : List Char) (c : Char) :
    digitsVal (xs ++ [c]) = 10 * digitsVal xs + (c.toNat - 48) := by
  simp [digitsVal, List.foldl_append]

theorem natToCharsAux_ne_nil (fuel n : Nat) (h : n < fuel) :
    natToCharsAux fuel n ≠ [] := by
  cases fuel with
  | zero => omega
  | succ f =>
    by_cases h10 : n < 10 <;> simp [natToCharsAux, h10]

theorem natToChars_ne_nil (n : Nat) : natToChars n ≠ [] :=
  natToCharsAux_ne_nil (n + 1) n (Nat.lt_succ_self n)

theorem natToCharsAux_digits (fuel : Nat) : ∀ n, n < fuel →
    ∀ c ∈ natToCharsAux fuel n, isDigitChar c = true := by
  induction fuel with
  | zero => omega
  | succ f ih =>
    intro n hn c hc
    by_cases h10 : n < 10
    · simp [natToCharsAux, h10] at hc
      subst hc
      interval_cases n <;> rfl
    · simp [natToCharsAux, h10] at hc
      rcases hc with hc | hc
      · have hdiv : n / 10 < f := by
          have h1 : n / 10 < n := Nat.div_lt_self (by omega) (by norm_num)
          omega
        exact ih (n / 10) hdiv c hc
      · subst hc
        have hmod : n % 10 < 10 := Nat.mod_lt n (by norm_num)
        set m := n % 10 with hm
        interval_cases m <;> rfl

theorem natToChars_digits (n : Nat) :
    ∀ c ∈ natToChars n, isDigitChar c = true :=
  natToCharsAux_digits (n + 1) n (Nat.lt_succ_self n)

theorem natToCharsAux_val (fuel : Nat) : ∀ n, n < fuel →
    digitsVal (natToCharsAux fuel n) = n := by
  induction fuel with
  | zero => omega
  | succ f ih =>
    intro n hn
    by_cases h10 : n < 10
    · simp only [natToCharsAux, if_pos h10]
      interval_cases n <;> rfl
    · simp only [natToCharsAux, if_neg h10]
      have hdiv : n / 10 < f := by
        have h1 : n / 10 < n := Nat.div_lt_self (by omega) (by norm_num)
        omega
      rw [digitsVal_append_single, ih (n / 10) hdiv]
      have hmod : n % 10 < 10 := Nat.mod_lt n (by norm_num)
      have hchar : (Char.ofNat (48 + n % 10)).toNat - 48 = n % 10 := by
        set m := n % 10 with hm
        interval_cases m <;> rfl
      rw [hchar]
      omega

theorem natToChars_val (n : Nat) : digitsVal (natToChars n) = n :=
  natToCharsAux_val (n + 1) n (Nat.lt_succ_self n)

theorem takeWhile_append_of_all (p : Char → Bool) (D rest : List Char)
    (hD : ∀ c ∈ D, p c = true)
    (hrest : ∀ c, rest.head? = some c → p c = false) :
    (D ++ rest).takeWhile p = D ∧ (D ++ rest).dropWhile p = rest := by
  induction D with
  | nil =>
    simp only [List.nil_append]
    cases rest with
    | nil => simp
    | cons c r =>
      have := hrest c rfl
      simp [List.takeWhile_cons, List.dropWhile_cons, this]
  | cons d D' ih =>
    have hd : p d = true := hD d (List.mem_cons_self d D')
    have ih' := ih (fun c hc => hD c (List.mem_cons_of_mem d hc))
    simp [List.takeWhile_cons, List.dropWhile_cons, hd, ih'.1, ih'.2]

theorem takeDigits_append (D rest : List Char)
    (hne : D ≠ [])
    (hD : ∀ c ∈ D, isDigitChar c = true)
    (hrest : ∀ c, rest.head? = some c → isDigitChar c = false) :
    takeDigits (D ++ rest) = some (D, rest) := by
  have h := takeWhile_append_of_all isDigitChar D rest hD hrest
  simp [takeDigits, h.1, h.2, hne]

theorem dropLit_exact (lit r : List Char) : dropLit lit (lit ++ r) = some r := by
  have hpre : List.isPrefixOf lit (lit ++ r) = true := by
    rw [List.isPrefixOf_iff_prefix]
    exact List.prefix_append lit r
  simp [dropLit, hpre]

theorem takeDigits_zero_comma (R : List Char) :
    takeDigits ('0' :: ',' :: R) = some (['0'], ',' :: R) := rfl

theorem dropLit_comma (R : List Char) : dropLit [','] (',' :: R) = some R :=
  dropLit_exact [','] R

theorem dropLit_spaceplus (R : List Char) :
    dropLit [' ', '+'] (' ' :: '+' :: R) = some R :=
  dropLit_exact [' ', '+'] R

theorem dropLit_atat (R : List Char) :
    dropLit [' ', '@', '@'] (' ' :: '@' :: '@' :: R) = some R :=
  dropLit_exact [' ', '@', '@'] R

theorem digitsVal_zero : digitsVal ['0'] = 0 := rfl

theorem takeDigits_natToChars (n : Nat) (c : Char) (R : List Char)
    (hc : isDigitChar c = false) :
    takeDigits (natToChars n ++ c :: R) = some (natToChars n, c :: R) :=
  takeDigits_append _ _ (natToChars_ne_nil n) (natToChars_digits n)
    (by intro d hd; simp at hd; subst hd; exact hc)

/-- The replacement `@@ -0,{eo} +0,{en} @@` written by the repair, followed
by anything, parses back with both start offsets `0` and exactly the
computed spans. -/
theorem parseFull_repl (eo en : Nat) (X : List Char) :
    parseHunkHeaderFull (replList eo en ++ X) = some (0, eo, 0, en, X) := by
  have hsplit1 : "@@ -0,".data = "@@ -".data ++ ['0', ','] := rfl
  have hsplit2 : " +0,".data = [' ', '+', '0', ','] := rfl
  have hsplit3 : " @@".data = [' ', '@', '@'] := rfl
  have heq : replList eo en ++ X =
      "@@ -".data ++ ('0' :: ',' :: (natToChars eo ++ (' ' :: '+' ::
        '0' :: ',' :: (natToChars en ++ (' ' :: '@' :: '@' :: X))))) := by
    rw [replList, hsplit1, hsplit2, hsplit3]
    simp
  rw [heq]
  simp only [parseHunkHeaderFull, dropLit_exact, takeDigits_zero_comma,
    dropLit_comma, takeDigits_natToChars eo ' ' _ rfl, dropLit_spaceplus,
    takeDigits_natToChars en ' ' _ rfl, dropLit_atat, digitsVal_zero,
    natToChars_val, Option.some_bind, Option.map_some']

theorem parseFull_nil : parseHunkHeaderFull [] = none := rfl

theorem subSpan_of_match (repl l : List Char) (a o c n : Nat) (rem : List Char)
    (hp : parseHunkHeaderFull l = some (a, o, c, n, rem)) :
    ∃ f, subSpan repl l = repl ++ subSpanAux repl f rem := by
  cases l with
  | nil => rw [parseFull_nil] at hp; exact absurd hp (by simp)
  | cons hd tl =>
    refine ⟨tl.length, ?_⟩
    simp only [subSpan, List.length_cons, subSpanAux, hp]

theorem parseHunkHeader_some_iff (l : List Char) (o n : Nat) :
    parseHunkHeader l = some (o, n) ↔
      ∃ a c rem, parseHunkHeaderFull l = some (a, o, c, n, rem) := by
  cases hf : parseHunkHeaderFull l with
  | none => simp [parseHunkHeader, hf]
  | some q =>
    obtain ⟨a, o', c, n', rem⟩ := q
    simp only [parseHunkHeader, hf, Option.some.injEq, Prod.mk.injEq]
    constructor
    · rintro ⟨rfl, rfl⟩
      exact ⟨a, c, rem, by simp⟩
    · rintro ⟨a', c', rem', hq⟩
      tauto

theorem parseHunkHeader_of_repl (eo en : Nat) (X : List Char) :
    parseHunkHeader (replList eo en ++ X) = some (eo, en) := by
  simp [parseHunkHeader, parseFull_repl]

/-- C2: on a hunk with a well-formed header, repairs allowed, a span mismatch
and no `Unexpected` body lines, the repair pass leaves the body unchanged,
makes the header's declared spans exactly the counted
`context+removed` / `context+added`, and the validator retains the hunk as
valid-after-repair. -/
theorem span_repair_fixes_header (h : Hunk) (o n : Nat)
    (hp : parseHunkHeader h.header = some (o, n))
    (hm : expectedOld h.body ≠ o ∨ expectedNew h.body ≠ n)
    (_hu : hasUnexpected h.body = false) :
    (validate_hunk h true).1 = .repairedValid ∧
    parseHunkHeader (validate_hunk h true).2.header =
      some (expectedOld h.body, expectedNew h.body) ∧
    (validate_hunk h true).2.body = h.body ∧
    validate_hunk_bool h true = true := by
  have hr := validate_hunk_repaired h o n hp hm
  obtain ⟨a, c, rem, hf⟩ := (parseHunkHeader_some_iff _ _ _).1 hp
  obtain ⟨f, hsub⟩ := subSpan_of_match
    (replList (expectedOld h.body) (expectedNew h.body)) h.header a o c n rem hf
  rw [hr]
  refine ⟨rfl, ?_, rfl, ?_⟩
  · show parseHunkHeader
      (subSpan (replList (expectedOld h.body) (expectedNew h.body)) h.header) = _
    rw [hsub]
    exact parseHunkHeader_of_repl _ _ _
  · simp [validate_hunk_bool, hr, outcomeRetains]

/-- Witness for C2 at the spec's scenario `@@ -1,2 +1,3 @@` with body
`" old"`, `"+new1"`, `"+new2"`: the repaired spans are `1` and `3` and the
hunk is retained. -/
theorem span_repair_fixes_header_witness :
    validate_hunk_bool
      ⟨"@@ -1,2 +1,3 @@\n".data,
        [" old\n".data, "+new1\n".data, "+new2\n".data]⟩ true = true ∧
    parseHunkHeader
      (validate_hunk
        ⟨"@@ -1,2 +1,3 @@\n".data,
          [" old\n".data, "+new1\n".data, "+new2\n".data]⟩ true).2.header =
      some (1, 3) := by
  have h := span_repair_fixes_header
    ⟨"@@ -1,2 +1,3 @@\n".data,
      [" old\n".data, "+new1\n".data, "+new2\n".data]⟩ 2 3
    (by decide) (by decide) (by decide)
  exact ⟨h.2.2.2, h.2.1.trans (by decide)⟩

/-- Occurrence of the span pattern `@@ -\d+,\d+ \+\d+,\d+ @@` anywhere in the
text (what `re.sub` would find). -/
def hasSpanOcc : List Char → Bool
  | [] => false
  | c :: rest => (parseHunkHeaderFull (c :: rest)).isSome || hasSpanOcc rest

theorem subSpanAux_no_occ (repl : List Char) (f : Nat) : ∀ l,
    hasSpanOcc l = false → subSpanAux repl f l = l := by
  induction f with
  | zero => intro l _; rfl
  | succ f ih =>
    intro l hl
    cases l with
    | nil => rfl
    | cons c rest =>
      simp only [hasSpanOcc, Bool.or_eq_false_iff] at hl
      obtain ⟨h1, h2⟩ := hl
      cases hf : parseHunkHeaderFull (c :: rest) with
      | some q => rw [hf] at h1; simp at h1
      | none => simp [subSpanAux, hf, ih rest h2]

/-- Counterexample to C4 as stated: repairing `@@ -5,2 +7,3 @@ def foo():`
(counted spans `1`/`1`) rewrites the start offsets `5` and `7` to `0`; they
are not preserved. -/
theorem span_repair_start_offsets_counterexample :
    parseHunkHeaderFull "@@ -5,2 +7,3 @@ def foo():\n".data =
      some (5, 2, 7, 3, " def foo():\n".data) ∧
    (validate_hunk ⟨"@@ -5,2 +7,3 @@ def foo():\n".data, [" a\n".data]⟩
        true).2.header = "@@ -0,1 +0,1 @@ def foo():\n".data ∧
    parseHunkHeaderFull "@@ -0,1 +0,1 @@ def foo():\n".data =
      some (0, 1, 0, 1, " def foo():\n".data) ∧
    (5 : Nat) ≠ 0 ∧ (7 : Nat) ≠ 0 := by
  refine ⟨by decide, by decide, by decide, by decide, by decide⟩

/-- C4 amended: when the repair fires, the whole matched header core
`@@ -<a>,<o> +<c>,<n> @@` is rewritten to `@@ -0,<expected_old> +0,<expected_new> @@`
(both start offsets reset to `0`), and the trailing header text is preserved
verbatim provided it contains no further occurrence of the span pattern
(`re.sub` would rewrite such occurrences too). -/
theorem span_repair_header_shape (h : Hunk) (a o c n : Nat) (tail : List Char)
    (hf : parseHunkHeaderFull h.header = some (a, o, c, n, tail))
    (hm : expectedOld h.body ≠ o ∨ expectedNew h.body ≠ n)
    (ht : hasSpanOcc tail = false) :
    (validate_hunk h true).1 = .repairedValid ∧
    (validate_hunk h true).2.header =
      replList (expectedOld h.body) (expectedNew h.body) ++ tail := by
  have hp : parseHunkHeader h.header = some (o, n) := by
    simp [parseHunkHeader, hf]
  have hr := validate_hunk_repaired h o n hp hm
  obtain ⟨f, hsub⟩ := subSpan_of_match
    (replList (expectedOld h.body) (expectedNew h.body)) h.header a o c n tail hf
  rw [hr]
  refine ⟨rfl, ?_⟩
  show subSpan (replList (expectedOld h.body) (expectedNew h.body)) h.header = _
  rw [hsub, subSpanAux_no_occ _ f tail ht]

/-- Witness for C4 amended at the same concrete hunk as the counterexample. -/
theorem span_repair_header_shape_witness :
    (validate_hunk ⟨"@@ -5,2 +7,3 @@ def foo():\n".data, [" a\n".data]⟩
        true).2.header =
      replList 1 1 ++ " def foo():\n".data := by
  have h := span_repair_header_shape
    ⟨"@@ -5,2 +7,3 @@ def foo():\n".data, [" a\n".data]⟩ 5 2 7 3
    " def foo():\n".data (by decide) (by decide) (by decide)
  exact h.2.trans (by decide)

/-! ## The iteration controller -/

theorem iterLoop_iterations_le (oracle : List Char → Bool) (useGit : Bool) :
    ∀ remaining done patch last git,
      (iterLoop oracle useGit remaining done patch last git).iterationsRun ≤
        done + remaining := by
  intro remaining
  induction remaining with
  | zero => intro done patch last git; simp [iterLoop]
  | succ r ih =>
    intro done patch last git
    simp only [iterLoop]
    by_cases h1 : last = some (pipelineOnce patch)
    · simp [h1]
    · simp only [if_neg h1]
      by_cases h2 :
          (if useGit then some (oracle (pipelineOnce patch)) else git) = some true
      · simp [h2]
      · simp only [if_neg h2]
        have := ih (done + 1) (pipelineOnce patch) (some (pipelineOnce patch))
          (if useGit then some (oracle (pipelineOnce patch)) else git)
        omega

/-- C5 (against the code): with a positive iteration cap the loop always
halts, runs a bounded number of rounds, and the reported `iterations_run`
never exceeds the cap; but with a cap of `0` (or negative) the loop body
never executes and the summary reads the unbound loop variable, so
`run_iterative` aborts with a `NameError` instead of returning — modelled by
the `none` result. -/
theorem iterative_bound_and_zero_cap_abort (oracle : List Char → Bool)
    (useGit : Bool) :
    (∀ input, run_iterative oracle useGit 0 input = none) ∧
    (∀ maxIterations input, 1 ≤ maxIterations →
      run_iterative oracle useGit maxIterations input =
        some (iterLoop oracle useGit maxIterations 0 input none none) ∧
      (iterLoop oracle useGit maxIterations 0 input none none).iterationsRun ≤
        maxIterations) := by
  refine ⟨fun input => by simp [run_iterative], ?_⟩
  intro cap input hcap
  constructor
  · simp [run_iterative, show cap ≠ 0 by omega]
  · simpa using iterLoop_iterations_le oracle useGit cap 0 input none none

/-- Witness for C5's positive-cap part at cap 1 on empty input with an
always-ok oracle. -/
theorem iterative_bound_and_zero_cap_abort_witness :
    (iterLoop (fun _ => true) true 1 0 [] none none).iterationsRun ≤ 1 :=
  ((iterative_bound_and_zero_cap_abort (fun _ => true) true).2 1 []
    (by decide)).2

/-! ## Whitespace-trim events (C9) -/

theorem escapeNl_no_newline (l : List Char) : '\n' ∉ escapeNl l := by
  induction l with
  | nil => simp [escapeNl]
  | cons c rest ih =>
    by_cases hc : c = '\n'
    · simp [escapeNl, hc, ih]
    · simp only [escapeNl, if_neg hc, List.mem_cons]
      rintro (h | h)
      · exact hc h.symm
      · exact ih h

theorem preview_no_newline (l : List Char) : '\n' ∉ preview l := by
  unfold preview
  by_cases hlen : (escapeNl l).length ≤ 80
  · simpa [hlen] using escapeNl_no_newline l
  · simp only [if_neg hlen]
    intro hmem
    rcases List.mem_append.1 hmem with hmem | hmem
    · exact escapeNl_no_newline l (List.mem_of_mem_take hmem)
    · simp at hmem

theorem preview_length_le (l : List Char) : (preview l).length ≤ 83 := by
  unfold preview
  by_cases hlen : (escapeNl l).length ≤ 80
  · simp [hlen]; omega
  · have h3 : ("...".data : List Char).length = 3 := rfl
    simp only [if_neg hlen, List.length_append, List.length_take, h3]
    omega

theorem trimEventsFrom_mem (lines : List Line) : ∀ (i0 i : Nat) (p : List Char),
    ((i, p) ∈ trimEventsFrom i0 lines) ↔
      ∃ l, i0 ≤ i ∧ lines[i - i0]? = some l ∧ rstrip l ≠ l ∧ p = preview l := by
  induction lines with
  | nil => intro i0 i p; simp [trimEventsFrom]
  | cons l rest ih =>
    intro i0 i p
    by_cases hr : rstrip l ≠ l
    · simp only [trimEventsFrom, if_pos hr, List.mem_cons]
      constructor
      · rintro (hq | hq)
        · injection hq with h1 h2
          subst h1; subst h2
          exact ⟨l, le_refl _, by simp, hr, rfl⟩
        · obtain ⟨l', hle, hget, hrs, hp⟩ := (ih (i0 + 1) i p).1 hq
          refine ⟨l', by omega, ?_, hrs, hp⟩
          have hi : i - i0 = (i - (i0 + 1)) + 1 := by omega
          rw [hi]
          simpa using hget
      · rintro ⟨l', hle, hget, hrs, hp⟩
        rcases Nat.eq_or_lt_of_le hle with heq | hlt
        · subst heq
          simp at hget
          subst hget
          left
          simp [hp]
        · right
          refine (ih (i0 + 1) i p).2 ⟨l', by omega, ?_, hrs, hp⟩
          have hi : i - i0 = (i - (i0 + 1)) + 1 := by omega
          rw [hi] at hget
          simpa using hget
    · simp only [trimEventsFrom, if_neg hr]
      constructor
      · intro hq
        obtain ⟨l', hle, hget, hrs, hp⟩ := (ih (i0 + 1) i p).1 hq
        refine ⟨l', by omega, ?_, hrs, hp⟩
        have hi : i - i0 = (i - (i0 + 1)) + 1 := by omega
        rw [hi]
        simpa using hget
      · rintro ⟨l', hle, hget, hrs, hp⟩
        rcases Nat.eq_or_lt_of_le hle with heq | hlt
        · subst heq
          simp at hget
          subst hget
          exact absurd hrs hr
        · refine (ih (i0 + 1) i p).2 ⟨l', by omega, ?_, hrs, hp⟩
          have hi : i - i0 = (i - (i0 + 1)) + 1 := by omega
          rw [hi] at hget
          simpa using hget

/-- Counterexample to C9 as stated, on the input `"b\na "`: a
`WHITESPACE_TRIMMED` event is recorded for line 1 even though normalisation
leaves that line unchanged (its only trailing whitespace is the terminator
itself), and the event recorded for line 2 carries the full original line
(short newline-free lines are not truncated by `preview`). -/
theorem trim_event_counterexample :
    basicCleanTrimEvents "b\na ".data =
      [(1, "b\\n".data), (2, "a ".data)] ∧
    cleanLine "b\n".data = "b\n".data ∧
    preview "a ".data = "a ".data := by
  refine ⟨by decide, by decide, by decide⟩

/-- C9 amended: a `WHITESPACE_TRIMMED` event is recorded for the `i`-th line
remaining after preamble stripping iff `line.rstrip() != line` (i.e. the line
carries trailing whitespace, the terminator included — not iff the cleaning
changed the line), and the event's recorded preview is the newline-escaped,
83-character-bounded `preview` of the original line, which for a short
newline-free line is the full line itself. -/
theorem trim_event_iff (text : List Char) :
    (∀ i p, ((i, p) ∈ basicCleanTrimEvents text) ↔
      ∃ l, 1 ≤ i ∧ (stripPreamble (splitLines text))[i - 1]? = some l ∧
        rstrip l ≠ l ∧ p = preview l) ∧
    (∀ i p, (i, p) ∈ basicCleanTrimEvents text →
      p.length ≤ 83 ∧ '\n' ∉ p) := by
  constructor
  · intro i p
    exact trimEventsFrom_mem (stripPreamble (splitLines text)) 1 i p
  · intro i p hmem
    obtain ⟨l, _, _, _, hp⟩ :=
      (trimEventsFrom_mem (stripPreamble (splitLines text)) 1 i p).1 hmem
    subst hp
    exact ⟨preview_length_le l, preview_no_newline l⟩

/-- Witness for C9 amended: the event recorded on `"b\na "` for line 2. -/
theorem trim_event_iff_witness :
    ("a ".data : List Char).length ≤ 83 ∧ '\n' ∉ "a ".data :=
  (trim_event_iff "b\na ".data).2 2 "a ".data (by decide)

/-! ## Structure of cleaned lines (C10) -/

theorem dropWhile_append_all (p : Char → Bool) (a b : List Char)
    (ha : ∀ c ∈ a, p c = true) :
    (a ++ b).dropWhile p = b.dropWhile p := by
  induction a with
  | nil => simp
  | cons x a' ih =>
    have hx : p x = true := ha x (List.mem_cons_self x a')
    simp only [List.cons_append, List.dropWhile_cons, hx, if_pos]
    exact ih fun c hc => ha c (List.mem_cons_of_mem x hc)

theorem dropWhile_subset_pred (p q : Char → Bool) (l : List Char)
    (hpq : ∀ c, q c = true → p c = true) :
    (l.dropWhile q).dropWhile p = l.dropWhile p := by
  induction l with
  | nil => simp
  | cons x l' ih =>
    by_cases hq : q x = true
    · have hp : p x = true := hpq x hq
      simp [List.dropWhile_cons, hq, hp, ih]
    · simp [List.dropWhile_cons, Bool.of_not_eq_true hq]

theorem dropWhile_idem (p : Char → Bool) (l : List Char) :
    (l.dropWhile p).dropWhile p = l.dropWhile p :=
  dropWhile_subset_pred p p l (fun _ h => h)

theorem rstrip_append_ws (x w : List Char) (hw : ∀ c ∈ w, isPySpace c = true) :
    rstrip (x ++ w) = rstrip x := by
  unfold rstrip
  rw [List.reverse_append]
  rw [dropWhile_append_all isPySpace w.reverse x.reverse
    (fun c hc => hw c (List.mem_reverse.1 hc))]

theorem rstrip_idem (l : List Char) : rstrip (rstrip l) = rstrip l := by
  unfold rstrip
  rw [List.reverse_reverse, dropWhile_idem]

theorem rstrip_rstripNl (l : List Char) : rstrip (rstripNl l) = rstrip l := by
  unfold rstrip rstripNl
  rw [List.reverse_reverse]
  rw [dropWhile_subset_pred isPySpace (fun c => c = '\n') l.reverse]
  intro c hc
  have : c = '\n' := by simpa using hc
  subst this
  rfl

theorem cleanLine_eq (l : Line) : cleanLine l = rstrip l ++ ['\n'] := by
  unfold cleanLine
  rw [rstrip_rstripNl]

theorem rstrip_mem (l : List Char) (c : Char) (hc : c ∈ rstrip l) : c ∈ l := by
  unfold rstrip at hc
  rw [List.mem_reverse] at hc
  exact List.mem_reverse.1 ((List.dropWhile_sublist _).mem hc)

/-- The invariant of every line handed downstream by the cleaner: the line is
its own `rstrip` plus exactly one newline, and the stripped part contains no
line-break character at all. -/
def CleanLn (l : Line) : Prop :=
  l = rstrip l ++ ['\n'] ∧ ∀ c ∈ rstrip l, isLineBreak c = false

theorem lineBreak_isPySpace (c : Char) (h : isLineBreak c = true) :
    isPySpace c = true := by
  simp only [isLineBreak, Bool.or_eq_true, decide_eq_true_eq] at h
  casesm* _ ∨ _ <;> subst_vars <;> rfl

theorem cleanLn_cleanLine (l : Line)
    (hl : ∀ c ∈ rstrip l, isLineBreak c = false) : CleanLn (cleanLine l) := by
  rw [cleanLine_eq]
  have hr : rstrip (rstrip l ++ ['\n']) = rstrip l := by
    rw [rstrip_append_ws _ _ (by intro c hc; simp at hc; subst hc; rfl),
      rstrip_idem]
  exact ⟨by rw [hr], by rw [hr]; exact hl⟩

theorem mem_rstrip_reverse_append_ws (acc w : List Char)
    (hw : ∀ c ∈ w, isPySpace c = true)
    (hinv : ∀ c ∈ acc, isLineBreak c = false) :
    ∀ c ∈ rstrip (acc.reverse ++ w), isLineBreak c = false := by
  intro c hc
  rw [rstrip_append_ws _ _ hw] at hc
  exact hinv c (List.mem_reverse.1 (rstrip_mem _ c hc))

theorem splitLinesAux_pieces : ∀ (fuel : Nat) (acc t : List Char),
    (∀ c ∈ acc, isLineBreak c = false) →
    ∀ piece ∈ splitLinesAux fuel acc t,
      ∀ c ∈ rstrip piece, isLineBreak c = false := by
  intro fuel
  induction fuel with
  | zero =>
    intro acc t hinv piece hp
    by_cases hemp : acc.isEmpty
    · simp [splitLinesAux, hemp] at hp
    · simp [splitLinesAux, hemp] at hp
      subst hp
      have := mem_rstrip_reverse_append_ws acc [] (by simp) hinv
      simpa using this
  | succ fuel ih =>
    intro acc t hinv piece hp
    cases t with
    | nil =>
      by_cases hemp : acc.isEmpty
      · simp [splitLinesAux, hemp] at hp
      · simp [splitLinesAux, hemp] at hp
        subst hp
        have := mem_rstrip_reverse_append_ws acc [] (by simp) hinv
        simpa using this
    | cons c rest =>
      by_cases hcr : c = '\r'
      · by_cases hh : rest.head? = some '\n'
        · rw [show splitLinesAux (fuel + 1) acc (c :: rest) =
              (acc.reverse ++ ['\r', '\n']) ::
                splitLinesAux fuel [] rest.tail by
            simp [splitLinesAux, hcr, hh]] at hp
          rcases List.mem_cons.1 hp with hp | hp
          · subst hp
            exact mem_rstrip_reverse_append_ws acc ['\r', '\n']
              (by decide) hinv
          · exact ih [] rest.tail (by simp) piece hp
        · rw [show splitLinesAux (fuel + 1) acc (c :: rest) =
              (acc.reverse ++ ['\r']) :: splitLinesAux fuel [] rest by
            simp [splitLinesAux, hcr, hh]] at hp
          rcases List.mem_cons.1 hp with hp | hp
          · subst hp
            exact mem_rstrip_reverse_append_ws acc ['\r']
              (by decide) hinv
          · exact ih [] rest (by simp) piece hp
      · by_cases hbr : isLineBreak c
        · rw [show splitLinesAux (fuel + 1) acc (c :: rest) =
              (acc.reverse ++ [c]) :: splitLinesAux fuel [] rest by
            simp [splitLinesAux, hcr, hbr]] at hp
          rcases List.mem_cons.1 hp with hp | hp
          · subst hp
            exact mem_rstrip_reverse_append_ws acc [c]
              (by intro x hx; simp at hx; subst hx
                  exact lineBreak_isPySpace _ hbr) hinv
          · exact ih [] rest (by simp) piece hp
        · rw [show splitLinesAux (fuel + 1) acc (c :: rest) =
              splitLinesAux fuel (c :: acc) rest by
            simp [splitLinesAux, hcr, hbr]] at hp
          refine ih (c :: acc) rest ?_ piece hp
          intro x hx
          rcases List.mem_cons.1 hx with hx | hx
          · subst hx; simpa using hbr
          · exact hinv x hx

theorem mem_dropTrailingPlusBlanks (lines : List Line) (l : Line)
    (hl : l ∈ dropTrailingPlusBlanks lines) : l ∈ lines := by
  unfold dropTrailingPlusBlanks at hl
  rw [List.mem_reverse] at hl
  exact List.mem_reverse.1 ((List.dropWhile_sublist _).mem hl)

theorem mem_stripPreamble (lines : List Line) (l : Line)
    (hl : l ∈ stripPreamble lines) : l ∈ lines := by
  unfold stripPreamble at hl
  cases h : lines.findIdx? isFileMarker with
  | none => rw [h] at hl; exact hl
  | some i => rw [h] at hl; exact List.drop_subset i lines hl

theorem basic_clean_cleanLn (text : List Char) :
    ∀ l ∈ basic_clean text, CleanLn l := by
  intro l hl
  unfold basic_clean at hl
  have hl2 := mem_dropTrailingPlusBlanks _ _ hl
  obtain ⟨y, hy, rfl⟩ := List.mem_map.1 hl2
  have hy2 := mem_stripPreamble _ _ hy
  exact cleanLn_cleanLine y
    (splitLinesAux_pieces (text.length + 1) [] text (by simp) y hy2)

/-- C10: every line returned by the cleaner ends in exactly one terminating
newline and carries no other trailing whitespace: the line equals its own
`rstrip` plus a single `"\n"`, and no further newline hides inside. -/
theorem cleaner_lines_normalized (text : List Char) (l : Line)
    (hl : l ∈ basic_clean text) :
    l = rstrip l ++ ['\n'] ∧ '\n' ∉ rstrip l := by
  obtain ⟨h1, h2⟩ := basic_clean_cleanLn text l hl
  refine ⟨h1, fun hmem => ?_⟩
  exact absurd (h2 '\n' hmem) (by decide)

/-- Witness for C10 on a concrete patch text with a trailing-whitespace
line. -/
theorem cleaner_lines_normalized_witness :
    (" x\n".data : List Char) = rstrip " x\n".data ++ ['\n'] ∧
    '\n' ∉ rstrip " x\n".data :=
  cleaner_lines_normalized "diff --git a b\n x \n".data " x\n".data (by decide)

/-! ## Further structure lemmas for `rstrip` and `CleanLn` -/

theorem dropWhile_eq_self_iff_char (p : Char → Bool) (y : List Char) :
    y.dropWhile p = y ↔ ∀ c, y.head? = some c → p c = false := by
  cases y with
  | nil => simp
  | cons a t =>
    constructor
    · intro h c hc
      simp only [List.head?_cons, Option.some.injEq] at hc
      subst hc
      by_contra hcp
      have hpa : p a = true := by simpa using hcp
      rw [List.dropWhile_cons, if_pos hpa] at h
      have hlen : (t.dropWhile p).length ≤ t.length :=
        (List.dropWhile_sublist p).length_le
      have : (a :: t).length ≤ t.length := by rw [← h]; exact hlen
      simp at this
    · intro h
      have hpa : p a = false := h a rfl
      simp [List.dropWhile_cons, hpa]

theorem rstrip_eq_self_iff (x : List Char) :
    rstrip x = x ↔ ∀ c, x.getLast? = some c → isPySpace c = false := by
  unfold rstrip
  constructor
  · intro h c hc
    have h' : x.reverse.dropWhile isPySpace = x.reverse := by
      have := congrArg List.reverse h
      rwa [List.reverse_reverse] at this
    rw [← List.head?_reverse] at hc
    exact (dropWhile_eq_self_iff_char isPySpace x.reverse).1 h' c hc
  · intro h
    have h' : x.reverse.dropWhile isPySpace = x.reverse :=
      (dropWhile_eq_self_iff_char isPySpace x.reverse).2
        (fun c hc => h c (by rwa [List.head?_reverse] at hc))
    rw [h', List.reverse_reverse]

theorem rstrip_drop_eq_self (s : List Char) (k : Nat) (hs : rstrip s = s) :
    rstrip (s.drop k) = s.drop k := by
  rw [rstrip_eq_self_iff]
  intro c hc
  by_cases hk : s.drop k = []
  · rw [hk] at hc; simp at hc
  · have : s.getLast? = some c := by
      conv_lhs => rw [← List.take_append_drop k s]
      rw [List.getLast?_append_of_ne_nil _ hk]
      exact hc
    exact (rstrip_eq_self_iff s).1 hs c this

/-- Introduction form for `CleanLn`. -/
theorem cleanLn_intro (s : List Char)
    (hnb : ∀ c ∈ s, isLineBreak c = false)
    (hlast : ∀ c, s.getLast? = some c → isPySpace c = false) :
    CleanLn (s ++ ['\n']) := by
  have hr : rstrip (s ++ ['\n']) = s := by
    rw [rstrip_append_ws _ _ (by intro c hc; simp at hc; subst hc; rfl)]
    exact (rstrip_eq_self_iff s).2 hlast
  exact ⟨by rw [hr], by rw [hr]; exact hnb⟩

/-- Elimination form for `CleanLn`: the decomposition `s ++ ['\n']` with the
properties of `s`. -/
theorem cleanLn_elim (l : Line) (h : CleanLn l) :
    ∃ s, l = s ++ ['\n'] ∧ (∀ c ∈ s, isLineBreak c = false) ∧
      (∀ c, s.getLast? = some c → isPySpace c = false) := by
  refine ⟨rstrip l, h.1, h.2, ?_⟩
  intro c hc
  have hidem : rstrip (rstrip l) = rstrip l := rstrip_idem l
  exact (rstrip_eq_self_iff (rstrip l)).1 hidem c hc

theorem cleanLn_ne_nil (l : Line) (h : CleanLn l) : l ≠ [] := by
  obtain ⟨s, rfl, -, -⟩ := cleanLn_elim l h
  simp

theorem dropLit_eq_some (lit l r : List Char) (h : dropLit lit l = some r) :
    l = lit ++ r := by
  unfold dropLit at h
  by_cases hp : List.isPrefixOf lit l
  · simp only [if_pos hp, Option.some.injEq] at h
    subst h
    rw [List.isPrefixOf_iff_prefix] at hp
    obtain ⟨t, rfl⟩ := hp
    simp
  · simp [hp] at h

theorem takeDigits_eq_some (l d r : List Char) (h : takeDigits l = some (d, r)) :
    l = d ++ r ∧ d ≠ [] ∧ ∀ c ∈ d, isDigitChar c = true := by
  unfold takeDigits at h
  split at h
  · simp at h
  · rename_i hne
    simp only [Option.some.injEq, Prod.mk.injEq] at h
    obtain ⟨rfl, rfl⟩ := h
    refine ⟨(List.takeWhile_append_dropWhile _ _).symm, ?_,
      fun c hc => List.mem_takeWhile_imp hc⟩
    intro hnil
    rw [hnil] at hne
    simp at hne

theorem digit_not_lineBreak (c : Char) (h : isDigitChar c = true) :
    isLineBreak c = false := by
  by_contra hb
  have hb' : isLineBreak c = true := by simpa using hb
  simp only [isLineBreak, Bool.or_eq_true, decide_eq_true_eq] at hb'
  casesm* _ ∨ _ <;> subst_vars <;> exact absurd h (by decide)

/-- Decomposition of a successful match of the span pattern: the input is the
matched text (nonempty, containing no line-break character) followed by the
remainder. -/
theorem parseFull_decomp (l : List Char) (a o c n : Nat) (rem : List Char)
    (h : parseHunkHeaderFull l = some (a, o, c, n, rem)) :
    ∃ pre, l = pre ++ rem ∧ pre ≠ [] ∧ ∀ ch ∈ pre, isLineBreak ch = false := by
  unfold parseHunkHeaderFull at h
  simp only [Option.bind_eq_some, Option.map_eq_some'] at h
  obtain ⟨r1, h1, dr1, h2, r3, h3, dr2, h4, r5, h5, dr3, h6, r7, h7, dr4, h8,
    r9, h9, hv⟩ := h
  obtain ⟨d1, r2⟩ := dr1
  obtain ⟨d2, r4⟩ := dr2
  obtain ⟨d3, r6⟩ := dr3
  obtain ⟨d4, r8⟩ := dr4
  simp only at h3 h5 h7 h9 hv
  simp only [Prod.mk.injEq] at hv
  obtain ⟨-, -, -, -, hrem⟩ := hv
  subst hrem
  have e1 := dropLit_eq_some _ _ _ h1
  obtain ⟨e2, hd1ne, hd1⟩ := takeDigits_eq_some _ _ _ h2
  have e3 := dropLit_eq_some _ _ _ h3
  obtain ⟨e4, hd2ne, hd2⟩ := takeDigits_eq_some _ _ _ h4
  have e5 := dropLit_eq_some _ _ _ h5
  obtain ⟨e6, hd3ne, hd3⟩ := takeDigits_eq_some _ _ _ h6
  have e7 := dropLit_eq_some _ _ _ h7
  obtain ⟨e8, hd4ne, hd4⟩ := takeDigits_eq_some _ _ _ h8
  have e9 := dropLit_eq_some _ _ _ h9
  have hlit1 : ∀ x ∈ ("@@ -".data : List Char), isLineBreak x = false := by decide
  have hlit2 : ∀ x ∈ (",".data : List Char), isLineBreak x = false := by decide
  have hlit3 : ∀ x ∈ (" +".data : List Char), isLineBreak x = false := by decide
  have hlit4 : ∀ x ∈ (" @@".data : List Char), isLineBreak x = false := by decide
  have hne : ("@@ -".data : List Char) ≠ [] := by decide
  refine ⟨"@@ -".data ++ d1 ++ ",".data ++ d2 ++ " +".data ++ d3 ++
    ",".data ++ d4 ++ " @@".data, ?_, ?_, ?_⟩
  · rw [e1, e2, e3, e4, e5, e6, e7, e8, e9]
    simp [List.append_assoc]
  · intro hemp
    simp only [List.append_eq_nil] at hemp
    exact hne hemp.1.1.1.1.1.1.1.1
  · intro ch hch
    simp only [List.mem_append] at hch
    rcases hch with ((((((((hch | hch) | hch) | hch) | hch) | hch) | hch)
      | hch) | hch)
    · exact hlit1 ch hch
    · exact digit_not_lineBreak ch (hd1 ch hch)
    · exact hlit2 ch hch
    · exact digit_not_lineBreak ch (hd2 ch hch)
    · exact hlit3 ch hch
    · exact digit_not_lineBreak ch (hd3 ch hch)
    · exact hlit2 ch hch
    · exact digit_not_lineBreak ch (hd4 ch hch)
    · exact hlit4 ch hch

theorem subSpanAux_nil (repl : List Char) (fuel : Nat) :
    subSpanAux repl fuel [] = [] := by
  cases fuel <;> rfl

theorem subSpanAux_newline (repl : List Char) (fuel : Nat) :
    subSpanAux repl fuel ['\n'] = ['\n'] := by
  cases fuel with
  | zero => rfl
  | succ f =>
    have hp : parseHunkHeaderFull ['\n'] = none := by decide
    simp [subSpanAux, hp, subSpanAux_nil]

theorem subSpanAux_len1 (repl : List Char) (hrepl : repl ≠ []) :
    ∀ (fuel : Nat) (l : List Char), 1 ≤ l.length →
      1 ≤ (subSpanAux repl fuel l).length := by
  intro fuel
  induction fuel with
  | zero => intro l h; simpa [subSpanAux] using h
  | succ f ih =>
    intro l h
    cases l with
    | nil => simp at h
    | cons c rest =>
      cases hp : parseHunkHeaderFull (c :: rest) with
      | some q =>
        obtain ⟨a, o, cc, n, rem⟩ := q
        simp only [subSpanAux, hp, List.length_append]
        have : 1 ≤ repl.length := List.length_pos.mpr hrepl
        omega
      | none => simp [subSpanAux, hp]

theorem subSpanAux_len2 (repl : List Char) (hrepl : 2 ≤ repl.length) :
    ∀ (fuel : Nat) (l : List Char), 2 ≤ l.length →
      2 ≤ (subSpanAux repl fuel l).length := by
  intro fuel
  induction fuel with
  | zero => intro l h; simpa [subSpanAux] using h
  | succ f ih =>
    intro l h
    cases l with
    | nil => simp at h
    | cons c rest =>
      cases hp : parseHunkHeaderFull (c :: rest) with
      | some q =>
        obtain ⟨a, o, cc, n, rem⟩ := q
        simp only [subSpanAux, hp, List.length_append]
        omega
      | none =>
        simp only [subSpanAux, hp, List.length_cons]
        have hrest : 1 ≤ rest.length := by
          simp only [List.length_cons] at h
          omega
        have := subSpanAux_len1 repl
          (by intro hq; rw [hq] at hrepl; simp at hrepl) f rest hrest
        omega

/-- The span substitution maps a clean line to a clean line (the replacement
text contains no line break and ends in a non-space character). -/
theorem cleanLn_subSpanAux (repl : List Char)
    (hrb : ∀ c ∈ repl, isLineBreak c = false)
    (hrlen : 2 ≤ repl.length)
    (hrlast : ∀ c, repl.getLast? = some c → isPySpace c = false) :
    ∀ (fuel : Nat) (l : List Char), CleanLn l → l.length ≤ fuel →
      CleanLn (subSpanAux repl fuel l) := by
  intro fuel
  induction fuel with
  | zero =>
    intro l hc hlen
    have hne := cleanLn_ne_nil l hc
    have : 0 < l.length := List.length_pos.mpr hne
    omega
  | succ f ih =>
    intro l hc hlen
    obtain ⟨s, rfl, hnb, hlast⟩ := cleanLn_elim l hc
    have hsr : rstrip s = s := (rstrip_eq_self_iff s).2 hlast
    cases s with
    | nil =>
      simp only [List.nil_append]
      rw [subSpanAux_newline]
      exact cleanLn_intro [] (by simp) (by simp)
    | cons ch s2 =>
      rw [List.cons_append]
      cases hp : parseHunkHeaderFull (ch :: (s2 ++ ['\n'])) with
      | some q =>
        obtain ⟨a, o, cc, n, rem⟩ := q
        simp only [subSpanAux, hp]
        obtain ⟨pre, hpre, hprene, hprenb⟩ := parseFull_decomp _ _ _ _ _ _ hp
        rw [← List.cons_append] at hpre
        have hlen1 : (ch :: s2).length + 1 = pre.length + rem.length := by
          have := congrArg List.length hpre
          simpa using this
        have hplen : pre.length ≤ (ch :: s2).length := by
          by_contra hgt
          push_neg at hgt
          have hremnil : rem = [] := by
            have : rem.length = 0 := by omega
            exact List.length_eq_zero.mp this
          rw [hremnil, List.append_nil] at hpre
          have : '\n' ∈ pre := by rw [← hpre]; simp
          have := hprenb '\n' this
          simp [isLineBreak] at this
        have hrem : rem = (ch :: s2).drop pre.length ++ ['\n'] := by
          have h1 : ((ch :: s2) ++ ['\n']).drop pre.length =
              (ch :: s2).drop pre.length ++ ['\n'] :=
            List.drop_append_of_le_length hplen
          rw [hpre, List.drop_left] at h1
          exact h1
        have hremClean : CleanLn rem := by
          rw [hrem]
          refine cleanLn_intro _ ?_ ?_
          · intro x hx
            exact hnb x (List.drop_subset _ _ hx)
          · exact (rstrip_eq_self_iff _).1 (rstrip_drop_eq_self _ _ hsr)
        have hremlen : rem.length ≤ f := by
          have hpre1 : 1 ≤ pre.length :=
            List.length_pos.mpr hprene
          have hlen' : s2.length + 2 ≤ f + 1 := by simpa using hlen
          simp only [List.length_cons] at hlen1
          omega
        have hsub := ih rem hremClean hremlen
        obtain ⟨t, ht, htnb, htlast⟩ := cleanLn_elim _ hsub
        rw [ht, ← List.append_assoc]
        refine cleanLn_intro _ ?_ ?_
        · intro x hx
          rcases List.mem_append.1 hx with hx | hx
          · exact hrb x hx
          · exact htnb x hx
        · intro x hx
          cases htnil : t with
          | nil =>
            rw [htnil, List.append_nil] at hx
            exact hrlast x hx
          | cons t0 ts =>
            rw [htnil] at hx
            rw [List.getLast?_append_of_ne_nil _ (by simp)] at hx
            exact htlast x (by rw [htnil]; exact hx)
      | none =>
        simp only [subSpanAux, hp]
        cases s2 with
        | nil =>
          simp only [List.nil_append]
          rw [subSpanAux_newline]
          exact hc
        | cons d s3 =>
          have hrestClean : CleanLn ((d :: s3) ++ ['\n']) := by
            refine cleanLn_intro _ ?_ ?_
            · intro x hx
              exact hnb x (List.mem_cons_of_mem ch hx)
            · intro x hx
              refine hlast x ?_
              rw [List.getLast?_cons_cons]
              exact hx
          have hrestlen : ((d :: s3) ++ ['\n']).length ≤ f := by
            have h1 := hlen
            simp only [List.length_cons, List.length_append,
              List.length_singleton, List.length_nil] at h1 ⊢
            omega
          have hsub := ih _ hrestClean hrestlen
          obtain ⟨t, ht, htnb, htlast⟩ := cleanLn_elim _ hsub
          have htne : t ≠ [] := by
            have h2 : 2 ≤ ((d :: s3) ++ ['\n']).length := by simp
            have := subSpanAux_len2 repl hrlen f _ h2
            rw [ht] at this
            intro htnil
            rw [htnil] at this
            simp at this
          rw [ht]
          have hsplit : ch :: (t ++ ['\n']) = (ch :: t) ++ ['\n'] := rfl
          rw [hsplit]
          refine cleanLn_intro _ ?_ ?_
          · intro x hx
            rcases List.mem_cons.1 hx with hx | hx
            · subst hx
              exact hnb x (by simp)
            · exact htnb x hx
          · intro x hx
            have hct : (ch :: t) = [ch] ++ t := by simp
            rw [hct, List.getLast?_append_of_ne_nil _ htne] at hx
            exact htlast x hx

/-! ## Rendering and re-splitting: `splitLines` on a flattened line list -/

theorem splitLinesAux_nil_nil (fuel : Nat) : splitLinesAux fuel [] [] = [] := by
  cases fuel <;> rfl

theorem splitLinesAux_line (s : List Char) : ∀ (fuel : Nat) (acc T : List Char),
    (∀ c ∈ s, isLineBreak c = false) →
    splitLinesAux (fuel + (s.length + 1)) acc (s ++ '\n' :: T) =
      (acc.reverse ++ s ++ ['\n']) :: splitLinesAux fuel [] T := by
  induction s with
  | nil =>
    intro fuel acc T _
    have h1 : ('\n' : Char) = '\r' ↔ False := by simp
    simp [splitLinesAux, isLineBreak]
  | cons c s' ih =>
    intro fuel acc T h
    have hc : isLineBreak c = false := h c (List.mem_cons_self c s')
    have hcr : ¬(c = '\r') := by
      intro hq
      subst hq
      exact absurd hc (by decide)
    have harith : fuel + ((c :: s').length + 1) = (fuel + (s'.length + 1)) + 1 := by
      simp [List.length_cons]
      omega
    rw [harith]
    show splitLinesAux ((fuel + (s'.length + 1)) + 1) acc (c :: (s' ++ '\n' :: T)) = _
    rw [show splitLinesAux ((fuel + (s'.length + 1)) + 1) acc
        (c :: (s' ++ '\n' :: T)) =
        splitLinesAux (fuel + (s'.length + 1)) (c :: acc) (s' ++ '\n' :: T) by
      simp [splitLinesAux, hcr, hc]]
    rw [ih (fuel) (c :: acc) T (fun x hx => h x (List.mem_cons_of_mem c hx))]
    simp

theorem splitLinesAux_flatten : ∀ (L : List Line) (fuel : Nat),
    (∀ l ∈ L, CleanLn l) → L.flatten.length < fuel →
    splitLinesAux fuel [] L.flatten = L := by
  intro L
  induction L with
  | nil =>
    intro fuel _ _
    simpa using splitLinesAux_nil_nil fuel
  | cons l L' ih =>
    intro fuel hclean hfuel
    obtain ⟨s, hs, hnb, -⟩ := cleanLn_elim l (hclean l (List.mem_cons_self l L'))
    have hflat : (l :: L').flatten = s ++ '\n' :: L'.flatten := by
      rw [List.flatten_cons, hs]
      simp
    rw [hflat]
    have hlen : s.length + 1 + L'.flatten.length < fuel := by
      rw [hflat] at hfuel
      simp only [List.length_append, List.length_cons] at hfuel
      omega
    obtain ⟨fuel', hfe⟩ : ∃ fuel', fuel = fuel' + (s.length + 1) :=
      ⟨fuel - (s.length + 1), by omega⟩
    subst hfe
    rw [splitLinesAux_line s fuel' [] L'.flatten hnb]
    simp only [List.reverse_nil, List.nil_append]
    rw [← hs]
    rw [ih fuel' (fun x hx => hclean x (List.mem_cons_of_mem l hx)) (by omega)]

theorem splitLines_flatten (L : List Line) (hclean : ∀ l ∈ L, CleanLn l) :
    splitLines L.flatten = L :=
  splitLinesAux_flatten L (L.flatten.length + 1) hclean (Nat.lt_succ_self _)

theorem stripPreamble_nil : stripPreamble [] = [] := rfl

theorem stripPreamble_marker_head (l : Line) (R : List Line)
    (hm : isFileMarker l = true) : stripPreamble (l :: R) = l :: R := by
  unfold stripPreamble
  simp [List.findIdx?_cons, hm]

theorem dropTrailingPlusBlanks_id (L : List Line)
    (h : ∀ l, L.getLast? = some l → isPlusBlank l = false) :
    dropTrailingPlusBlanks L = L := by
  unfold dropTrailingPlusBlanks
  cases hL : L.reverse with
  | nil =>
    have : L = [] := by simpa using congrArg List.reverse hL
    simp [this]
  | cons x xs =>
    have hx : isPlusBlank x = false := by
      refine h x ?_
      rw [← List.head?_reverse, hL]
      rfl
    rw [List.dropWhile_cons, hx]
    simp only [Bool.false_eq_true, if_false]
    rw [← hL, List.reverse_reverse]

theorem map_cleanLine_id (L : List Line) (h : ∀ l ∈ L, CleanLn l) :
    L.map cleanLine = L := by
  induction L with
  | nil => rfl
  | cons l R ih =>
    have hl : cleanLine l = l := by
      rw [cleanLine_eq]
      exact (h l (List.mem_cons_self l R)).1.symm
    simp only [List.map_cons, hl,
      ih (fun x hx => h x (List.mem_cons_of_mem l hx))]

/-- On a list of clean lines whose first line is a `diff --git ` line and
whose last line is not a `+`-blank, `basic_clean` of the flattened text is
the identity. -/
theorem basic_clean_flatten_id (L : List Line)
    (hclean : ∀ l ∈ L, CleanLn l)
    (hhead : ∀ l R, L = l :: R → isFileMarker l = true)
    (hlast : ∀ l, L.getLast? = some l → isPlusBlank l = false) :
    basic_clean L.flatten = L := by
  unfold basic_clean
  rw [splitLines_flatten L hclean]
  cases L with
  | nil => rfl
  | cons l R =>
    rw [stripPreamble_marker_head l R (hhead l R rfl)]
    rw [map_cleanLine_id _ hclean]
    exact dropTrailingPlusBlanks_id _ hlast

/-! ## Parse round-trip on rendered documents -/

/-- A line that neither begins a file section nor a hunk. -/
def plainLine (l : Line) : Prop :=
  isFileMarker l = false ∧ isHunkMarker l = false

/-- Well-formedness of a document as the parser produces it: every header
line carries its marker, and auxiliary header lines and body lines carry
neither marker. -/
def WfDoc (files : List FileDiff) : Prop :=
  ∀ fd ∈ files,
    isFileMarker fd.header = true ∧
    (∀ a ∈ fd.headers, plainLine a) ∧
    ∀ hk ∈ fd.hunks, isHunkMarker hk.header = true ∧ ∀ b ∈ hk.body, plainLine b

theorem hunkMarker_not_fileMarker (l : Line) (h : isHunkMarker l = true) :
    isFileMarker l = false := by
  unfold isHunkMarker at h
  rw [List.isPrefixOf_iff_prefix] at h
  obtain ⟨t, ht⟩ := h
  subst ht
  by_contra hq
  have hq' : List.isPrefixOf "diff --git ".data ("@@ ".data ++ t) = true := by
    simp only [isFileMarker, Bool.not_eq_false] at hq
    exact hq
  rw [List.isPrefixOf_iff_prefix] at hq'
  obtain ⟨u, hu⟩ := hq'
  have h1 : "diff --git ".data ++ u = 'd' :: ("iff --git ".data ++ u) := rfl
  have h2 : ("@@ ".data ++ t : List Char) = '@' :: ("@ ".data ++ t) := rfl
  rw [h1, h2] at hu
  injection hu with hu1 _
  exact absurd hu1 (by decide)

theorem takeBody_append (B R : List Line)
    (hB : ∀ b ∈ B, plainLine b)
    (hR : R = [] ∨ ∃ l t, R = l :: t ∧
      (isFileMarker l = true ∨ isHunkMarker l = true)) :
    takeBody (B ++ R) = (B, R) := by
  induction B with
  | nil =>
    simp only [List.nil_append]
    rcases hR with rfl | ⟨l, t, rfl, hm⟩
    · rfl
    · have : (isFileMarker l || isHunkMarker l) = true := by
        rcases hm with hm | hm <;> simp [hm]
      simp [takeBody, this]
  | cons b B' ih =>
    have hb := hB b (List.mem_cons_self b B')
    have hcond : (isFileMarker b || isHunkMarker b) = false := by
      simp [hb.1, hb.2]
    have hih := ih (fun x hx => hB x (List.mem_cons_of_mem b hx))
    simp only [List.cons_append, takeBody, hcond, Bool.false_eq_true,
      if_false]
    show (b :: (takeBody (B' ++ R)).1, (takeBody (B' ++ R)).2) = (b :: B', R)
    rw [hih]

/-- Well-formedness of a hunk list (headers marked, bodies plain). -/
def hunksWf (hks : List Hunk) : Prop :=
  ∀ hk ∈ hks, isHunkMarker hk.header = true ∧ ∀ b ∈ hk.body, plainLine b

theorem parseHunksAux_append (hks : List Hunk) : ∀ (fuel : Nat) (R : List Line),
    hunksWf hks →
    (R = [] ∨ ∃ l t, R = l :: t ∧ isFileMarker l = true) →
    (hks.flatMap hunkLines).length < fuel →
    parseHunksAux fuel (hks.flatMap hunkLines ++ R) = (hks, R) := by
  induction hks with
  | nil =>
    intro fuel R _ hR hfuel
    simp only [List.flatMap_nil, List.nil_append]
    rcases hR with rfl | ⟨l, t, rfl, hm⟩
    · cases fuel <;> rfl
    · cases fuel with
      | zero => simp at hfuel
      | succ f => simp [parseHunksAux, hm]
  | cons hk hks' ih =>
    intro fuel R hwf hR hfuel
    have hhd := hwf hk (List.mem_cons_self hk hks')
    have hwf' : hunksWf hks' := fun x hx => hwf x (List.mem_cons_of_mem hk hx)
    cases fuel with
    | zero => simp at hfuel
    | succ f =>
      have hflat : (hk :: hks').flatMap hunkLines ++ R =
          hk.header :: (hk.body ++ (hks'.flatMap hunkLines ++ R)) := by
        simp [hunkLines, List.flatMap_cons]
      rw [hflat]
      have hnotfile : isFileMarker hk.header = false :=
        hunkMarker_not_fileMarker _ hhd.1
      have htb : takeBody (hk.body ++ (hks'.flatMap hunkLines ++ R)) =
          (hk.body, hks'.flatMap hunkLines ++ R) := by
        refine takeBody_append _ _ hhd.2 ?_
        cases hks' with
        | nil =>
          simp only [List.flatMap_nil, List.nil_append]
          rcases hR with rfl | ⟨l, t, rfl, hm⟩
          · exact Or.inl rfl
          · exact Or.inr ⟨l, t, rfl, Or.inl hm⟩
        | cons hk2 hks'' =>
          have hshape : (hk2 :: hks'').flatMap hunkLines ++ R =
              hk2.header :: (hk2.body ++ (hks''.flatMap hunkLines ++ R)) := by
            simp [List.flatMap_cons, hunkLines]
          exact Or.inr ⟨hk2.header, _, hshape,
            Or.inr (hwf' hk2 (List.mem_cons_self hk2 hks'')).1⟩
      simp only [parseHunksAux, hnotfile, hhd.1, htb]
      have hlen : (hks'.flatMap hunkLines).length < f := by
        have := hfuel
        simp only [List.flatMap_cons, List.length_append, hunkLines,
          List.length_cons] at this
        omega
      rw [ih f R hwf' hR hlen]
      simp

theorem parseFilesAux_docLines (files : List FileDiff) : ∀ (fuel : Nat),
    WfDoc files → (docLines files).length < fuel →
    parseFilesAux fuel (docLines files) = files := by
  induction files with
  | nil =>
    intro fuel _ _
    cases fuel <;> rfl
  | cons fd files' ih =>
    intro fuel hwf hfuel
    have hfd := hwf fd (List.mem_cons_self fd files')
    have hwf' : WfDoc files' := fun x hx => hwf x (List.mem_cons_of_mem fd hx)
    cases fuel with
    | zero => simp at hfuel
    | succ f =>
      have hdl : docLines (fd :: files') =
          fd.header :: (fd.headers ++
            (fd.hunks.flatMap hunkLines ++ docLines files')) := by
        simp [docLines, fileLines, List.flatMap_cons]
      rw [hdl]
      have hRnext : docLines files' = [] ∨ ∃ l t, docLines files' = l :: t ∧
          isFileMarker l = true := by
        cases hfl : files' with
        | nil => exact Or.inl (by simp [docLines])
        | cons fd2 files'' =>
          have hm2 : isFileMarker fd2.header = true := by
            refine (hwf' fd2 ?_).1
            rw [hfl]
            exact List.mem_cons_self fd2 files''
          have hshape : docLines (fd2 :: files'') = fd2.header ::
              (fd2.headers ++ (fd2.hunks.flatMap hunkLines ++
                docLines files'')) := by
            simp [docLines, fileLines]
          exact Or.inr ⟨fd2.header, _, hshape, hm2⟩
      have htb : takeBody (fd.headers ++
          (fd.hunks.flatMap hunkLines ++ docLines files')) =
          (fd.headers, fd.hunks.flatMap hunkLines ++ docLines files') := by
        refine takeBody_append _ _ hfd.2.1 ?_
        cases hhk : fd.hunks with
        | nil =>
          simp only [List.flatMap_nil, List.nil_append]
          rcases hRnext with hRn | ⟨l, t, hRn, hml⟩
          · exact Or.inl hRn
          · exact Or.inr ⟨l, t, hRn, Or.inl hml⟩
        | cons hk hks =>
          have hm1 : isHunkMarker hk.header = true := by
            refine (hfd.2.2 hk ?_).1
            rw [hhk]
            exact List.mem_cons_self hk hks
          have hshape : (hk :: hks).flatMap hunkLines ++ docLines files' =
              hk.header :: (hk.body ++ (hks.flatMap hunkLines ++
                docLines files')) := by
            simp [List.flatMap_cons, hunkLines]
          exact Or.inr ⟨hk.header, _, hshape, Or.inr hm1⟩
      have hph : parseHunksAux ((fd.hunks.flatMap hunkLines ++
          docLines files').length + 1)
          (fd.hunks.flatMap hunkLines ++ docLines files') =
          (fd.hunks, docLines files') := by
        refine parseHunksAux_append fd.hunks _ _ ?_ hRnext ?_
        · intro hk hhk
          exact hfd.2.2 hk hhk
        · simp only [List.length_append]
          omega
      have hlen : (docLines files').length < f := by
        rw [hdl] at hfuel
        simp only [List.length_cons, List.length_append] at hfuel
        omega
      have hrest := ih f hwf' hlen
      simp only [parseFilesAux, hfd.1, eq_self_iff_true, if_true, htb, hph,
        hrest]

/-- `parse_diff` inverts rendering on a well-formed document. -/
theorem parse_diff_docLines (files : List FileDiff) (hwf : WfDoc files) :
    parse_diff (docLines files) = files :=
  parseFilesAux_docLines files ((docLines files).length + 1) hwf
    (Nat.lt_succ_self _)

/-! ## Properties of the replacement header and of retained hunks -/

theorem replList_no_break (eo en : Nat) :
    ∀ c ∈ replList eo en, isLineBreak c = false := by
  intro c hc
  unfold replList at hc
  simp only [List.mem_append] at hc
  have hl1 : ∀ x ∈ ("@@ -0,".data : List Char), isLineBreak x = false := by decide
  have hl2 : ∀ x ∈ (" +0,".data : List Char), isLineBreak x = false := by decide
  have hl3 : ∀ x ∈ (" @@".data : List Char), isLineBreak x = false := by decide
  rcases hc with (((hc | hc) | hc) | hc) | hc
  · exact hl1 c hc
  · exact digit_not_lineBreak c (natToChars_digits eo c hc)
  · exact hl2 c hc
  · exact digit_not_lineBreak c (natToChars_digits en c hc)
  · exact hl3 c hc

theorem replList_len2 (eo en : Nat) : 2 ≤ (replList eo en).length := by
  unfold replList
  simp only [List.length_append, List.length_cons, List.length_nil]
  omega

theorem replList_last (eo en : Nat) :
    ∀ c, (replList eo en).getLast? = some c → isPySpace c = false := by
  intro c hc
  unfold replList at hc
  rw [List.getLast?_append_of_ne_nil _ (by decide)] at hc
  have : (" @@".data : List Char).getLast? = some '@' := by decide
  rw [this] at hc
  injection hc with hc
  subst hc
  rfl

theorem cleanLn_subSpan_replList (eo en : Nat) (l : List Char)
    (h : CleanLn l) : CleanLn (subSpan (replList eo en) l) :=
  cleanLn_subSpanAux (replList eo en) (replList_no_break eo en)
    (replList_len2 eo en) (replList_last eo en) l.length l h (le_refl _)

theorem isHunkMarker_replList (eo en : Nat) (X : List Char) :
    isHunkMarker (replList eo en ++ X) = true := by
  unfold isHunkMarker
  rw [List.isPrefixOf_iff_prefix]
  refine ⟨"-0,".data ++ natToChars eo ++ " +0,".data ++ natToChars en ++
    " @@".data ++ X, ?_⟩
  unfold replList
  have : ("@@ ".data : List Char) ++ "-0,".data = "@@ -0,".data := rfl
  rw [← this]
  simp [List.append_assoc]

/-- What is true of the updated hunk whenever `validate_hunk` (with repairs
allowed) retains it: the body is unchanged, the (possibly repaired) header
declares exactly the counted spans, and the hunk-marker / clean-line
properties of the header are preserved. -/
theorem validate_retained_props (hk : Hunk)
    (hr : outcomeRetains (validate_hunk hk true).1 = true) :
    (validate_hunk hk true).2.body = hk.body ∧
    parseHunkHeader (validate_hunk hk true).2.header =
      some (expectedOld hk.body, expectedNew hk.body) ∧
    (isHunkMarker hk.header = true →
      isHunkMarker (validate_hunk hk true).2.header = true) ∧
    (CleanLn hk.header → CleanLn (validate_hunk hk true).2.header) := by
  cases hp : parseHunkHeader hk.header with
  | none =>
    rw [validate_hunk_malformed hk true hp] at hr
    simp [outcomeRetains] at hr
  | some pr =>
    obtain ⟨o, n⟩ := pr
    by_cases hm : expectedOld hk.body = o ∧ expectedNew hk.body = n
    · by_cases hu : hasUnexpected hk.body = true
      · rw [validate_hunk_not_repaired hk o n hp hm.1 hm.2 hu] at hr ⊢
        simp [outcomeRetains] at hr
      · have hu' : hasUnexpected hk.body = false := by
          simpa using hu
        rw [validate_hunk_valid hk true o n hp hm.1 hm.2 hu']
        exact ⟨rfl, by rw [hp, hm.1, hm.2], fun h => h, fun h => h⟩
    · have hm' : expectedOld hk.body ≠ o ∨ expectedNew hk.body ≠ n := by
        tauto
      rw [validate_hunk_repaired hk o n hp hm']
      obtain ⟨a, c, rem, hf⟩ := (parseHunkHeader_some_iff _ _ _).1 hp
      obtain ⟨f, hsub⟩ := subSpan_of_match
        (replList (expectedOld hk.body) (expectedNew hk.body))
        hk.header a o c n rem hf
      refine ⟨rfl, ?_, ?_, ?_⟩
      · show parseHunkHeader (subSpan _ hk.header) = _
        rw [hsub]
        exact parseHunkHeader_of_repl _ _ _
      · intro _
        show isHunkMarker (subSpan _ hk.header) = true
        rw [hsub]
        exact isHunkMarker_replList _ _ _
      · intro hcl
        exact cleanLn_subSpan_replList _ _ _ hcl

/-! ## Structure of the filtered document -/

/-- The hunks one file keeps under `filter_or_repair_files`. -/
def keptHunks (ar : Bool) (hks : List Hunk) : List Hunk :=
  hks.filterMap fun hk =>
    let (outcome, hk2) := validate_hunk hk ar
    if outcomeRetains outcome then some hk2 else none

theorem filter_or_repair_files_eq (files : List FileDiff) (ar : Bool) :
    filter_or_repair_files files ar =
      files.filterMap fun fd =>
        if (keptHunks ar fd.hunks).isEmpty then none
        else some { fd with hunks := keptHunks ar fd.hunks } := rfl

theorem mem_keptHunks (ar : Bool) (hks : List Hunk) (hk' : Hunk) :
    hk' ∈ keptHunks ar hks ↔
      ∃ hk ∈ hks, outcomeRetains (validate_hunk hk ar).1 = true ∧
        (validate_hunk hk ar).2 = hk' := by
  unfold keptHunks
  rw [List.mem_filterMap]
  constructor
  · rintro ⟨hk, hmem, hf⟩
    refine ⟨hk, hmem, ?_⟩
    rcases hv : validate_hunk hk ar with ⟨outcome, hk2⟩
    rw [hv] at hf
    by_cases hro : outcomeRetains outcome = true
    · simp only [hro, if_true] at hf
      injection hf with hf
      exact ⟨hro, hf⟩
    · simp only [Bool.of_not_eq_true hro] at hf
      simp at hf
  · rintro ⟨hk, hmem, hro, hk2⟩
    refine ⟨hk, hmem, ?_⟩
    rcases hv : validate_hunk hk ar with ⟨outcome, hku⟩
    rw [hv] at hro hk2
    simp only at hro hk2
    simp [hro, hk2]

theorem mem_filter_or_repair (files : List FileDiff) (ar : Bool)
    (fd' : FileDiff) (h : fd' ∈ filter_or_repair_files files ar) :
    ∃ fd ∈ files, fd'.header = fd.header ∧ fd'.headers = fd.headers ∧
      fd'.hunks = keptHunks ar fd.hunks ∧ fd'.hunks ≠ [] := by
  rw [filter_or_repair_files_eq, List.mem_filterMap] at h
  obtain ⟨fd, hmem, hf⟩ := h
  by_cases he : (keptHunks ar fd.hunks).isEmpty
  · simp [he] at hf
  · simp only [Bool.of_not_eq_true he, if_false] at hf
    simp only [Bool.false_eq_true, if_false] at hf
    injection hf with hf
    subst hf
    refine ⟨fd, hmem, rfl, rfl, rfl, ?_⟩
    intro hq
    have hq' : keptHunks ar fd.hunks = [] := hq
    rw [hq'] at he
    simp at he

/-- Hunks that validate as plain `Valid` are kept unchanged, and a file all
of whose hunks do so is kept unchanged. -/
theorem keptHunks_id (hks : List Hunk)
    (h : ∀ hk ∈ hks, validate_hunk hk true = (.valid, hk)) :
    keptHunks true hks = hks := by
  induction hks with
  | nil => rfl
  | cons hk hks' ih =>
    have hhd := h hk (List.mem_cons_self hk hks')
    have ih' := ih (fun x hx => h x (List.mem_cons_of_mem hk hx))
    show List.filterMap _ (hk :: hks') = hk :: hks'
    rw [List.filterMap_cons]
    simp only [hhd, outcomeRetains, eq_self_iff_true, if_true]
    exact congrArg (List.cons hk) ih'

theorem filter_or_repair_id (files : List FileDiff)
    (h : ∀ fd ∈ files, fd.hunks ≠ [] ∧
      ∀ hk ∈ fd.hunks, validate_hunk hk true = (.valid, hk)) :
    filter_or_repair_files files true = files := by
  induction files with
  | nil => rfl
  | cons fd files' ih =>
    have hfd := h fd (List.mem_cons_self fd files')
    have hkept : keptHunks true fd.hunks = fd.hunks := keptHunks_id _ hfd.2
    have hne2 : fd.hunks.isEmpty = false := by
      cases hq : fd.hunks with
      | nil => exact absurd hq hfd.1
      | cons a b => rfl
    have hstep : (if (keptHunks true fd.hunks).isEmpty then none
        else some { fd with hunks := keptHunks true fd.hunks }) = some fd := by
      rw [hkept, hne2]
      rfl
    have ih' := ih (fun x hx => h x (List.mem_cons_of_mem fd hx))
    rw [filter_or_repair_files_eq] at ih' ⊢
    simp only [List.filterMap_cons, hstep, ih']

/-! ## Invariants of the parser output -/

theorem takeBody_eq (l : List Line) :
    l = (takeBody l).1 ++ (takeBody l).2 ∧
    ∀ b ∈ (takeBody l).1, plainLine b := by
  induction l with
  | nil => exact ⟨rfl, by simp [takeBody]⟩
  | cons x rest ih =>
    cases hm : (isFileMarker x || isHunkMarker x) with
    | true => exact ⟨by simp [takeBody, hm], by simp [takeBody, hm]⟩
    | false =>
      simp only [takeBody, hm, Bool.false_eq_true, if_false]
      constructor
      · simp only [List.cons_append]
        exact congrArg (List.cons x) ih.1
      · intro b hb
        rcases List.mem_cons.1 hb with rfl | hb
        · have := Bool.or_eq_false_iff.1 hm
          exact ⟨this.1, this.2⟩
        · exact ih.2 b hb

theorem takeBody_fst_subset (l : List Line) : ∀ b ∈ (takeBody l).1, b ∈ l := by
  intro b hb
  have h := (takeBody_eq l).1
  rw [h]
  exact List.mem_append.2 (Or.inl hb)

theorem takeBody_snd_subset (l : List Line) : ∀ b ∈ (takeBody l).2, b ∈ l := by
  intro b hb
  have h := (takeBody_eq l).1
  rw [h]
  exact List.mem_append.2 (Or.inr hb)

theorem parseHunksAux_lines : ∀ (fuel : Nat) (lines : List Line),
    (∀ hk ∈ (parseHunksAux fuel lines).1,
      (hk.header ∈ lines ∧ isHunkMarker hk.header = true) ∧
      ∀ b ∈ hk.body, b ∈ lines ∧ plainLine b) ∧
    (∀ x ∈ (parseHunksAux fuel lines).2, x ∈ lines) := by
  intro fuel
  induction fuel with
  | zero =>
    intro lines
    constructor
    · intro hk hhk
      simp [parseHunksAux] at hhk
    · intro x hx
      simpa [parseHunksAux] using hx
  | succ f ih =>
    intro lines
    cases lines with
    | nil =>
      constructor
      · intro hk hhk
        simp [parseHunksAux] at hhk
      · intro x hx
        simp [parseHunksAux] at hx
    | cons l rest =>
      by_cases hfm : isFileMarker l = true
      · constructor
        · intro hk hhk
          simp [parseHunksAux, hfm] at hhk
        · intro x hx
          simpa [parseHunksAux, hfm] using hx
      · have hfm' : isFileMarker l = false := by simpa using hfm
        by_cases hhm : isHunkMarker l = true
        · have hres : parseHunksAux (f + 1) (l :: rest) =
              (⟨l, (takeBody rest).1⟩ ::
                (parseHunksAux f (takeBody rest).2).1,
                (parseHunksAux f (takeBody rest).2).2) := by
            simp [parseHunksAux, hfm', hhm]
          rw [hres]
          have ihr := ih (takeBody rest).2
          constructor
          · intro hk hhk
            rcases List.mem_cons.1 hhk with rfl | hhk
            · refine ⟨⟨List.mem_cons_self _ _, hhm⟩, ?_⟩
              intro b hb
              exact ⟨List.mem_cons_of_mem l (takeBody_fst_subset rest b hb),
                (takeBody_eq rest).2 b hb⟩
            · obtain ⟨⟨hh1, hh2⟩, hbody⟩ := ihr.1 hk hhk
              refine ⟨⟨List.mem_cons_of_mem l
                (takeBody_snd_subset rest _ hh1), hh2⟩, ?_⟩
              intro b hb
              obtain ⟨hb1, hb2⟩ := hbody b hb
              exact ⟨List.mem_cons_of_mem l
                (takeBody_snd_subset rest _ hb1), hb2⟩
          · intro x hx
            exact List.mem_cons_of_mem l
              (takeBody_snd_subset rest _ (ihr.2 x hx))
        · have hhm' : isHunkMarker l = false := by simpa using hhm
          constructor
          · intro hk hhk
            simp [parseHunksAux, hfm', hhm'] at hhk
          · intro x hx
            simpa [parseHunksAux, hfm', hhm'] using hx

theorem parseFilesAux_lines : ∀ (fuel : Nat) (lines : List Line),
    ∀ fd ∈ parseFilesAux fuel lines,
      (fd.header ∈ lines ∧ isFileMarker fd.header = true) ∧
      (∀ a ∈ fd.headers, a ∈ lines ∧ plainLine a) ∧
      (∀ hk ∈ fd.hunks, (hk.header ∈ lines ∧ isHunkMarker hk.header = true) ∧
        ∀ b ∈ hk.body, b ∈ lines ∧ plainLine b) := by
  intro fuel
  induction fuel with
  | zero =>
    intro lines fd hfd
    simp [parseFilesAux] at hfd
  | succ f ih =>
    intro lines
    cases lines with
    | nil =>
      intro fd hfd
      simp [parseFilesAux] at hfd
    | cons l rest =>
      by_cases hfm : isFileMarker l = true
      · have hres : parseFilesAux (f + 1) (l :: rest) =
            ⟨l, (takeBody rest).1,
              (parseHunksAux (((takeBody rest).2.length + 1))
                (takeBody rest).2).1⟩ ::
            parseFilesAux f
              (parseHunksAux (((takeBody rest).2.length + 1))
                (takeBody rest).2).2 := by
          simp [parseFilesAux, hfm]
        rw [hres]
        intro fd hfd
        have hph := parseHunksAux_lines ((takeBody rest).2.length + 1)
          (takeBody rest).2
        rcases List.mem_cons.1 hfd with rfl | hfd
        · refine ⟨⟨List.mem_cons_self _ _, hfm⟩, ?_, ?_⟩
          · intro a ha
            exact ⟨List.mem_cons_of_mem l (takeBody_fst_subset rest a ha),
              (takeBody_eq rest).2 a ha⟩
          · intro hk hhk
            obtain ⟨⟨hh1, hh2⟩, hbody⟩ := hph.1 hk hhk
            refine ⟨⟨List.mem_cons_of_mem l
              (takeBody_snd_subset rest _ hh1), hh2⟩, ?_⟩
            intro b hb
            obtain ⟨hb1, hb2⟩ := hbody b hb
            exact ⟨List.mem_cons_of_mem l
              (takeBody_snd_subset rest _ hb1), hb2⟩
        · have ihr := ih _ fd hfd
          have hsub : ∀ x, x ∈ (parseHunksAux ((takeBody rest).2.length + 1)
              (takeBody rest).2).2 → x ∈ l :: rest := by
            intro x hx
            exact List.mem_cons_of_mem l
              (takeBody_snd_subset rest _ (hph.2 x hx))
          refine ⟨⟨hsub _ ihr.1.1, ihr.1.2⟩, ?_, ?_⟩
          · intro a ha
            obtain ⟨ha1, ha2⟩ := ihr.2.1 a ha
            exact ⟨hsub a ha1, ha2⟩
          · intro hk hhk
            obtain ⟨⟨hh1, hh2⟩, hbody⟩ := ihr.2.2 hk hhk
            refine ⟨⟨hsub _ hh1, hh2⟩, ?_⟩
            intro b hb
            obtain ⟨hb1, hb2⟩ := hbody b hb
            exact ⟨hsub b hb1, hb2⟩
      · have hfm' : isFileMarker l = false := by simpa using hfm
        intro fd hfd
        have hres : parseFilesAux (f + 1) (l :: rest) =
            parseFilesAux f rest := by
          simp [parseFilesAux, hfm']
        rw [hres] at hfd
        have ihr := ih rest fd hfd
        refine ⟨⟨List.mem_cons_of_mem l ihr.1.1, ihr.1.2⟩, ?_, ?_⟩
        · intro a ha
          obtain ⟨ha1, ha2⟩ := ihr.2.1 a ha
          exact ⟨List.mem_cons_of_mem l ha1, ha2⟩
        · intro hk hhk
          obtain ⟨⟨hh1, hh2⟩, hbody⟩ := ihr.2.2 hk hhk
          refine ⟨⟨List.mem_cons_of_mem l hh1, hh2⟩, ?_⟩
          intro b hb
          obtain ⟨hb1, hb2⟩ := hbody b hb
          exact ⟨List.mem_cons_of_mem l hb1, hb2⟩

/-! ## Membership in the rendered lines -/

theorem mem_docLines (files : List FileDiff) (l : Line) :
    l ∈ docLines files ↔ ∃ fd ∈ files, l ∈ fileLines fd := by
  simp [docLines, List.mem_flatMap]

theorem mem_fileLines (fd : FileDiff) (l : Line) :
    l ∈ fileLines fd ↔ l = fd.header ∨ l ∈ fd.headers ∨
      ∃ hk ∈ fd.hunks, l = hk.header ∨ l ∈ hk.body := by
  simp [fileLines, hunkLines, List.mem_flatMap, List.mem_cons,
    List.mem_append]

theorem plusBlank_not_hunkMarker (l : Line) (h : isHunkMarker l = true) :
    isPlusBlank l = false := by
  unfold isHunkMarker at h
  rw [List.isPrefixOf_iff_prefix] at h
  obtain ⟨t, ht⟩ := h
  subst ht
  unfold isPlusBlank
  have : List.isPrefixOf ['+'] ("@@ ".data ++ t) = false := by
    have h2 : ("@@ ".data ++ t : List Char) = '@' :: ("@ ".data ++ t) := rfl
    rw [h2]
    rfl
  rw [this]
  rfl

theorem plusBlank_unexpected (l : Line) (h : isPlusBlank l = true) :
    classifyLine l = .unexpected := by
  unfold isPlusBlank at h
  rw [Bool.and_eq_true] at h
  obtain ⟨h1, h2⟩ := h
  rw [List.isPrefixOf_iff_prefix] at h1
  obtain ⟨t, ht⟩ := h1
  subst ht
  simp only [List.singleton_append] at h2 ⊢
  have h2' : strip ('+' :: t) = ['+'] := of_decide_eq_true h2
  unfold classifyLine
  have hsp : List.isPrefixOf " ".data ('+' :: t) = false := rfl
  have hmi : List.isPrefixOf "-".data ('+' :: t) = false := rfl
  have hnl : List.isPrefixOf "\\ No newline at end of file".data
      ('+' :: t) = false := rfl
  rw [hsp, hmi, hnl]
  simp [h2']

theorem hasUnexpected_false_no_plusBlank (body : List Line)
    (h : hasUnexpected body = false) :
    ∀ b ∈ body, isPlusBlank b = false := by
  intro b hb
  by_contra hq
  have hq' : isPlusBlank b = true := by simpa using hq
  have hcl := plusBlank_unexpected b hq'
  unfold hasUnexpected at h
  rw [List.any_eq_false] at h
  have := h b hb
  rw [hcl] at this
  simp at this

theorem flatMap_hunkLines_ne_nil (hks : List Hunk) (h : hks ≠ []) :
    hks.flatMap hunkLines ≠ [] := by
  cases hks with
  | nil => exact absurd rfl h
  | cons hk t => simp [List.flatMap_cons, hunkLines]

theorem docLines_ne_nil (files : List FileDiff) (h : files ≠ []) :
    docLines files ≠ [] := by
  cases files with
  | nil => exact absurd rfl h
  | cons fd t => simp [docLines, List.flatMap_cons, fileLines]

/-- The last rendered line of a document whose files all keep at least one
hunk is a hunk header or a hunk body line. -/
theorem docLines_getLast_hunk (files : List FileDiff)
    (hne : ∀ fd ∈ files, fd.hunks ≠ []) :
    ∀ l, (docLines files).getLast? = some l →
      ∃ fd ∈ files, ∃ hk ∈ fd.hunks, l = hk.header ∨ l ∈ hk.body := by
  induction files with
  | nil => intro l hl; simp [docLines] at hl
  | cons fd files' ih =>
    intro l hl
    cases hfl : files' with
    | cons fd2 files'' =>
      have hne2 : docLines files' ≠ [] :=
        docLines_ne_nil files' (by rw [hfl]; simp)
      rw [show docLines (fd :: files') = fileLines fd ++ docLines files' by
        simp [docLines, List.flatMap_cons]] at hl
      rw [List.getLast?_append_of_ne_nil _ hne2] at hl
      obtain ⟨fd3, hfd3, hrest⟩ := ih (fun x hx =>
        hne x (List.mem_cons_of_mem fd hx)) l hl
      exact ⟨fd3, List.mem_cons_of_mem fd (hfl ▸ hfd3), hrest⟩
    | nil =>
      subst hfl
      rw [show docLines [fd] = fileLines fd by
        simp [docLines, List.flatMap_cons]] at hl
      have hH : fd.hunks.flatMap hunkLines ≠ [] :=
        flatMap_hunkLines_ne_nil fd.hunks (hne fd (List.mem_cons_self fd []))
      rw [show fileLines fd = ([fd.header] ++ fd.headers) ++
          fd.hunks.flatMap hunkLines by simp [fileLines]] at hl
      rw [List.getLast?_append_of_ne_nil _ hH] at hl
      have hmem : l ∈ fd.hunks.flatMap hunkLines :=
        List.mem_of_mem_getLast? hl
      rw [List.mem_flatMap] at hmem
      obtain ⟨hk, hhk, hml⟩ := hmem
      refine ⟨fd, List.mem_cons_self fd [], hk, hhk, ?_⟩
      rcases List.mem_cons.1 hml with rfl | hml
      · exact Or.inl rfl
      · exact Or.inr hml

/-! ## The repaired document's invariants and the fixed-point theorem -/

theorem repairedDoc_invariants (text : List Char) :
    WfDoc (repairedDoc text) ∧
    (∀ l ∈ docLines (repairedDoc text), CleanLn l) ∧
    (∀ fd ∈ repairedDoc text, fd.hunks ≠ []) ∧
    (∀ fd ∈ repairedDoc text, ∀ hk ∈ fd.hunks,
      parseHunkHeader hk.header =
        some (expectedOld hk.body, expectedNew hk.body)) := by
  have hL : ∀ l ∈ basic_clean text, CleanLn l := basic_clean_cleanLn text
  have hP : ∀ fd ∈ parse_diff (basic_clean text),
      (fd.header ∈ basic_clean text ∧ isFileMarker fd.header = true) ∧
      (∀ a ∈ fd.headers, a ∈ basic_clean text ∧ plainLine a) ∧
      (∀ hk ∈ fd.hunks,
        (hk.header ∈ basic_clean text ∧ isHunkMarker hk.header = true) ∧
        ∀ b ∈ hk.body, b ∈ basic_clean text ∧ plainLine b) :=
    parseFilesAux_lines ((basic_clean text).length + 1) (basic_clean text)
  have hfile : ∀ fd' ∈ repairedDoc text,
      ∃ fd ∈ parse_diff (basic_clean text),
        fd'.header = fd.header ∧ fd'.headers = fd.headers ∧
        fd'.hunks = keptHunks true fd.hunks ∧ fd'.hunks ≠ [] := by
    intro fd' hfd'
    exact mem_filter_or_repair _ true fd' hfd'
  have hkfacts : ∀ fd' ∈ repairedDoc text, ∀ hk' ∈ fd'.hunks,
      parseHunkHeader hk'.header =
        some (expectedOld hk'.body, expectedNew hk'.body) ∧
      isHunkMarker hk'.header = true ∧ CleanLn hk'.header ∧
      ∀ b ∈ hk'.body, plainLine b ∧ CleanLn b := by
    intro fd' hfd' hk' hhk'
    obtain ⟨fd, hfd0, hh, hhs, hke, hne⟩ := hfile fd' hfd'
    rw [hke] at hhk'
    obtain ⟨hk, hk0, hret, hupd⟩ := (mem_keptHunks true fd.hunks hk').1 hhk'
    have vp := validate_retained_props hk hret
    rw [hupd] at vp
    obtain ⟨vbody, vparse, vmark, vclean⟩ := vp
    have h0 := (hP fd hfd0).2.2 hk hk0
    have hclean0 : CleanLn hk.header := hL _ h0.1.1
    refine ⟨?_, vmark h0.1.2, vclean hclean0, ?_⟩
    · rw [vbody]
      exact vparse
    · intro b hb
      rw [vbody] at hb
      have hbp := h0.2 b hb
      exact ⟨hbp.2, hL _ hbp.1⟩
  refine ⟨?_, ?_, ?_, ?_⟩
  · intro fd' hfd'
    obtain ⟨fd, hfd0, hh, hhs, hke, hne⟩ := hfile fd' hfd'
    refine ⟨by rw [hh]; exact (hP fd hfd0).1.2, ?_, ?_⟩
    · intro a ha
      rw [hhs] at ha
      exact ((hP fd hfd0).2.1 a ha).2
    · intro hk hhk
      have hf := hkfacts fd' hfd' hk hhk
      exact ⟨hf.2.1, fun b hb => (hf.2.2.2 b hb).1⟩
  · intro l hl
    rw [mem_docLines] at hl
    obtain ⟨fd', hfd', hlf⟩ := hl
    rw [mem_fileLines] at hlf
    obtain ⟨fd, hfd0, hh, hhs, hke, hne⟩ := hfile fd' hfd'
    rcases hlf with rfl | hlf | ⟨hk, hhk, hcase⟩
    · rw [hh]
      exact hL _ (hP fd hfd0).1.1
    · rw [hhs] at hlf
      exact hL _ ((hP fd hfd0).2.1 l hlf).1
    · have hf := hkfacts fd' hfd' hk hhk
      rcases hcase with rfl | hb
      · exact hf.2.2.1
      · exact (hf.2.2.2 l hb).2
  · intro fd' hfd'
    obtain ⟨fd, hfd0, hh, hhs, hke, hne⟩ := hfile fd' hfd'
    exact hne
  · intro fd' hfd' hk hhk
    exact (hkfacts fd' hfd' hk hhk).1

/-- Counterexample to C3 as stated: a hunk whose body contains the
unexpected line `+` (bare plus) is retained by the first pass via a span
repair; rendering puts that line at the end of the text, where the second
pass's EOF trimming deletes it, so the second render differs from the
first. -/
theorem render_fixed_point_counterexample :
    pipelineOnce (pipelineOnce
      "diff --git a/f b/f\n@@ -1,1 +1,2 @@\n ctx\n+\ndiff --git a/g b/g\n@@ garbage @@\n".data) ≠
    pipelineOnce
      "diff --git a/f b/f\n@@ -1,1 +1,2 @@\n ctx\n+\ndiff --git a/g b/g\n@@ garbage @@\n".data := by
  decide

/-- C3 amended: the first render is a fixed point of a further
clean→parse→validate(repairs)→render pass provided no hunk retained by the
first pass contains an `Unexpected` body line (a best-effort salvaged hunk
can carry, e.g., a trailing bare-`+` line that the second pass's EOF
trimming removes). -/
theorem render_fixed_point (text : List Char)
    (hu : ∀ fd ∈ repairedDoc text, ∀ hk ∈ fd.hunks,
      hasUnexpected hk.body = false) :
    pipelineOnce (pipelineOnce text) = pipelineOnce text := by
  obtain ⟨hwf, hclean, hne, hself⟩ := repairedDoc_invariants text
  have hrender : pipelineOnce text = (docLines (repairedDoc text)).flatten :=
    rfl
  have hbc : basic_clean ((docLines (repairedDoc text)).flatten) =
      docLines (repairedDoc text) := by
    refine basic_clean_flatten_id _ hclean ?_ ?_
    · intro l R hLR
      cases hDD : repairedDoc text with
      | nil => rw [hDD] at hLR; simp [docLines] at hLR
      | cons fd t =>
        have hshape : docLines (repairedDoc text) = fd.header ::
            (fd.headers ++ (fd.hunks.flatMap hunkLines ++ docLines t)) := by
          rw [hDD]
          simp [docLines, fileLines, List.flatMap_cons]
        rw [hshape] at hLR
        injection hLR with hl _
        rw [← hl]
        exact (hwf fd (by rw [hDD]; exact List.mem_cons_self fd t)).1
    · intro l hlast
      obtain ⟨fd, hfd, hk, hhk, hcase⟩ :=
        docLines_getLast_hunk (repairedDoc text) hne l hlast
      rcases hcase with rfl | hbmem
      · exact plusBlank_not_hunkMarker _ ((hwf fd hfd).2.2 hk hhk).1
      · exact hasUnexpected_false_no_plusBlank _ (hu fd hfd hk hhk) l hbmem
  have hpd : parse_diff (docLines (repairedDoc text)) = repairedDoc text :=
    parse_diff_docLines _ hwf
  have hfr : filter_or_repair_files (repairedDoc text) true =
      repairedDoc text := by
    refine filter_or_repair_id _ ?_
    intro fd hfd
    refine ⟨hne fd hfd, ?_⟩
    intro hk hhk
    exact validate_hunk_valid hk true _ _ (hself fd hfd hk hhk) rfl rfl
      (hu fd hfd hk hhk)
  have hfix : pipelineOnce ((docLines (repairedDoc text)).flatten) =
      (docLines (repairedDoc text)).flatten := by
    show render_patch (filter_or_repair_files
      (parse_diff (basic_clean ((docLines (repairedDoc text)).flatten)))
      true) = (docLines (repairedDoc text)).flatten
    rw [hbc, hpd, hfr]
    rfl
  rw [hrender]
  exact hfix

/-- Witness for C3 amended at the spec's scenario patch (the repaired
document keeps one hunk, with no unexpected lines). -/
theorem render_fixed_point_witness :
    pipelineOnce (pipelineOnce
      "diff --git a/f b/f\n@@ -1,2 +1,3 @@\n old\n+new1\n+new2\n".data) =
    pipelineOnce
      "diff --git a/f b/f\n@@ -1,2 +1,3 @@\n old\n+new1\n+new2\n".data :=
  render_fixed_point _ (by decide)

end GitPatchRepair
